import Mathlib

/-!
# Verification of the uninformed grid-search engine

A shallow embedding of the search visualizer's core
(`src/visualizer/components.py` and `src/visualizer/algorithms.py`):
the `Grid` data model with its neighbor query, the parent-linked `Node`
record, the strategy-selected frontier disciplines (LIFO stack, FIFO
queue, min-cost priority queue), the `search` loop of
`UninformedSearch`, and the iterative-deepening driver.

Machine integers are modelled as `Int`/`Nat` (Python integers are
unbounded, so no wrap-around is involved).  The GUI/CLI visualization
hooks are pure side effects with no influence on the search state and
are omitted.  The fields `pops` and `expanded` of `SearchState`, and
the attempted-limit list returned by `iterative_deepening_search`, are
ghost instrumentation: they record which nodes were popped from the
frontier, which nodes were expanded (the `explored.add` site), and
which depth limits were attempted; no other part of the transition
function reads them.
-/

namespace SearchViz

/-- A grid coordinate, a Python `(x, y)` tuple of integers. -/
abbrev Pos := Int × Int

/-- The four axis-aligned directions in the fixed order used by
`Grid.get_neighbors`: up, right, down, left. -/
def directions : List (Int × Int) := [(0, -1), (1, 0), (0, 1), (-1, 0)]

/-- `components.py` `Node` dataclass: state, optional parent link,
cumulative cost and depth (both defaulting to 0 at creation). -/
inductive Node : Type where
  | mk : Pos → Option Node → Int → Nat → Node
deriving Repr

/-- `node.state` -/
def Node.state : Node → Pos
  | .mk s _ _ _ => s

/-- `node.parent` -/
def Node.parent : Node → Option Node
  | .mk _ p _ _ => p

/-- `node.cost` -/
def Node.cost : Node → Int
  | .mk _ _ c _ => c

/-- `node.depth` -/
def Node.depth : Node → Nat
  | .mk _ _ _ d => d

/-- Length (in steps) of the parent chain of a node; the start node has
chain length 0. -/
def Node.chainLen : Node → Nat
  | .mk _ none _ _ => 0
  | .mk _ (some q) _ _ => q.chainLen + 1

/-- `components.py` `Grid` dataclass. -/
structure Grid where
  width : Int
  height : Int
  start : Pos
  goal : Pos
  barriers : List Pos
  increased_cost_cells : List (Pos × Int)
deriving Repr

/-- Association-list lookup, `dict.get(key)` on the weighted-cells
mapping. -/
def lookupCost (cells : List (Pos × Int)) (p : Pos) : Option Int :=
  match cells with
  | [] => none
  | (q, c) :: rest => if q = p then some c else lookupCost rest p

/-- `self.increased_cost_cells.get((new_x, new_y), 1)`: the step cost of
entering a cell, defaulting to 1. -/
def Grid.cellCost (g : Grid) (p : Pos) : Int :=
  match lookupCost g.increased_cost_cells p with
  | some c => c
  | none => 1

/-- `Grid.is_goal_state`: the node's state equals the goal. -/
def Grid.is_goal_state (g : Grid) (node : Node) : Bool :=
  node.state = g.goal

/-- In-bounds test `0 <= new_x < self.width and 0 <= new_y < self.height`. -/
def inBoundsP (g : Grid) (p : Pos) : Prop :=
  0 ≤ p.1 ∧ p.1 < g.width ∧ 0 ≤ p.2 ∧ p.2 < g.height

instance (g : Grid) (p : Pos) : Decidable (inBoundsP g p) := by
  unfold inBoundsP; infer_instance

/-- `Grid.get_neighbors`: for each direction (up, right, down, left)
include the adjacent coordinate if it is within bounds and not a
barrier; the neighbor's parent is the given node, its cost is
`node.cost + increased_cost_cells.get(adjacent, 1)`, its depth is the
dataclass default 0. -/
def Grid.get_neighbors (g : Grid) (node : Node) : List Node :=
  directions.filterMap (fun d =>
    if inBoundsP g (node.state.1 + d.1, node.state.2 + d.2) then
      if (node.state.1 + d.1, node.state.2 + d.2) ∈ g.barriers then none
      else some (Node.mk (node.state.1 + d.1, node.state.2 + d.2) (some node)
        (node.cost + g.cellCost (node.state.1 + d.1, node.state.2 + d.2)) 0)
    else none)

/-- `_reconstruct_path`, the backward walk: states from the given node
back to the start. -/
def chainStatesRev : Node → List Pos
  | .mk s none _ _ => [s]
  | .mk s (some q) _ _ => s :: chainStatesRev q

/-- `UninformedSearch._reconstruct_path`: walk parent links collecting
states, then reverse (`path[::-1]`). -/
def reconstruct_path (n : Node) : List Pos :=
  (chainStatesRev n).reverse

/-- `constants.py` `UninformedSearchStrategy` enumeration. -/
inductive UninformedSearchStrategy : Type where
  | DepthFirstSearch
  | DepthLimitedSearch
  | BreadthFirstSearch
  | UniformCostSearch
  | IterativeDeepeningSearch
deriving DecidableEq, Repr

/-- The three frontier queue disciplines: `queue.LifoQueue`,
`queue.Queue`, `queue.PriorityQueue`. -/
inductive FrontierType : Type where
  | lifo
  | fifo
  | priority
deriving DecidableEq, Repr

/-- `UninformedSearch.frontier_type_map`. -/
def frontier_type_map : UninformedSearchStrategy → FrontierType
  | .DepthFirstSearch => .lifo
  | .DepthLimitedSearch => .lifo
  | .BreadthFirstSearch => .fifo
  | .UniformCostSearch => .priority
  | .IterativeDeepeningSearch => .lifo

/-- The terminal/running status of one search run, the state machine of
the spec: `Running → GoalFound | Exhausted | DepthLimitHit`. -/
inductive SearchStatus : Type where
  | running
  | goalFound
  | exhausted
  | depthLimitHit
deriving DecidableEq, Repr

/-- The mutable search state owned by an `UninformedSearch` instance.
`pops` and `expanded` are ghost instrumentation (see the file header). -/
structure SearchState : Type where
  frontier : List Node
  frontier_set : List Pos
  explored : List Pos
  path : List Pos
  final_cost : Int
  depth_limit : Option Int
  depth_limit_hit : Bool
  status : SearchStatus
  pops : List Node
  expanded : List Node

/-- Python `set.add`: membership-preserving insert. -/
def setAdd (l : List Pos) (s : Pos) : List Pos :=
  if s ∈ l then l else s :: l

/-- Python `if s in set: set.remove(s)`. -/
def setRemove (l : List Pos) (s : Pos) : List Pos :=
  l.filter (fun x => decide (x ≠ s))

/-- Extraction of a minimal-cost entry from the priority frontier
(`queue.PriorityQueue.get` on `(cost, node)` pairs where the stored
cost is always `node.cost`).  Ties between equal costs are broken by
the heap layout in CPython; the spec declares the tie-break
implementation-defined, and this model resolves ties toward the
earliest-inserted entry.  No claim depends on the tie-break. -/
def popMin : List Node → Option (Node × List Node)
  | [] => none
  | n :: rest =>
    match popMin rest with
    | none => some (n, [])
    | some (m, rest') => if n.cost ≤ m.cost then some (n, rest) else some (m, n :: rest')

/-- `frontier.get()` for each discipline, on the insertion-ordered list
of pending nodes: FIFO takes the oldest, LIFO the newest, priority a
minimal-cost entry.  Returns `none` iff the frontier is empty. -/
def popF : FrontierType → List Node → Option (Node × List Node)
  | .fifo, [] => none
  | .fifo, n :: rest => some (n, rest)
  | .lifo, l =>
    match l.getLast? with
    | none => none
    | some n => some (n, l.dropLast)
  | .priority, l => popMin l

/-- `UninformedSearch.update_frontier` (with `_update_priority_queue`
inlined for the priority discipline): put the node and record its state
in `frontier_set`; the priority variant skips the insert when the state
is already pending. -/
def update_frontier (ft : FrontierType) (st : SearchState) (node : Node) : SearchState :=
  match ft with
  | .priority =>
    if node.state ∈ st.frontier_set then st
    else { st with frontier := st.frontier ++ [node],
                   frontier_set := setAdd st.frontier_set node.state }
  | _ => { st with frontier := st.frontier ++ [node],
                   frontier_set := setAdd st.frontier_set node.state }

/-- `self.depth_limit is not None and current_node.depth >= self.depth_limit`. -/
def depthLimitReached : Option Int → Nat → Bool
  | none, _ => false
  | some L, d => L ≤ (d : Int)

/-- The new-neighbor construction of the expansion loop: when a depth
limit is configured, a fresh node is built with
`depth = current.depth + 1` (same state, parent `current`, same cost);
otherwise the grid-provided node is reused as-is. -/
def adjDepth (dl : Option Int) (cur nb : Node) : Node :=
  match dl with
  | some _ => Node.mk nb.state (some cur) nb.cost (cur.depth + 1)
  | none => nb

/-- The per-neighbor body of the expansion loop: build `new_neighbor`,
then insert it unless its state is already explored or pending. -/
def expandNeighbor (ft : FrontierType) (cur : Node) (st : SearchState) (nb : Node) :
    SearchState :=
  if (adjDepth st.depth_limit cur nb).state ∉ st.explored ∧
      (adjDepth st.depth_limit cur nb).state ∉ st.frontier_set then
    update_frontier ft st (adjDepth st.depth_limit cur nb)
  else st

/-- One iteration of the `while not self.frontier.empty()` loop of
`UninformedSearch.search`: pop, drop the popped state from
`frontier_set`, goal test, depth-limit test, otherwise mark explored and
expand the neighbors.  An empty frontier makes the loop exit
(`Exhausted`). -/
def searchStep (g : Grid) (ft : FrontierType) (st : SearchState) : SearchState :=
  match popF ft st.frontier with
  | none => { st with status := .exhausted }
  | some (cur, rest) =>
    let st1 : SearchState :=
      { st with frontier := rest,
                frontier_set := setRemove st.frontier_set cur.state,
                pops := st.pops ++ [cur] }
    if g.is_goal_state cur then
      { st1 with path := reconstruct_path cur, final_cost := cur.cost,
                 status := .goalFound }
    else if depthLimitReached st1.depth_limit cur.depth then
      { st1 with depth_limit_hit := true, final_cost := cur.cost,
                 status := .depthLimitHit }
    else
      let st2 : SearchState :=
        { st1 with explored := setAdd st1.explored cur.state,
                   expanded := st1.expanded ++ [cur] }
      (g.get_neighbors cur).foldl (expandNeighbor ft cur) st2

/-- The search loop, fuel-indexed: run `searchStep` while the status is
`running` and fuel remains.  A sufficient fuel bound is proved below, so
the theorems quantify over any fuel above the bound. -/
def searchLoop (g : Grid) (ft : FrontierType) : Nat → SearchState → SearchState
  | 0, st => st
  | fuel + 1, st =>
    if st.status = .running then searchLoop g ft fuel (searchStep g ft st) else st

/-- `self.start_node = Node(state=self.grid.start, parent=None, cost=0)`. -/
def mkStartNode (g : Grid) : Node :=
  Node.mk g.start none 0 0

/-- The search-state fields as initialized by `UninformedSearch.__init__`
for a given effective depth limit: empty frontier and sets, empty path,
zero cost, flag cleared. -/
def initSearchState (dl : Option Int) : SearchState :=
  { frontier := [], frontier_set := [], explored := [], path := [],
    final_cost := 0, depth_limit := dl, depth_limit_hit := false,
    status := .running, pops := [], expanded := [] }

/-- `UninformedSearch.search` as a whole: seed the frontier with the
start node, then loop. -/
def runSearch (g : Grid) (ft : FrontierType) (dl : Option Int) (fuel : Nat) : SearchState :=
  searchLoop g ft fuel (update_frontier ft (initSearchState dl) (mkStartNode g))

/-- `self.depth_limit = min(depth_limit, 100) if depth_limit else None`:
the depth-limit clamp applied at construction.  Note that Python
truthiness sends both `None` and `0` to `None`. -/
def clampDepthLimit : Option Int → Option Int
  | none => none
  | some d => if d = 0 then none else some (min d 100)

/-- Reset performed at the top of each iterative-deepening attempt:
fresh frontier, cleared sets/path/cost/flag, `depth_limit := depth`.
The ghost fields accumulate across attempts. -/
def resetForAttempt (st : SearchState) (d : Int) : SearchState :=
  { st with frontier := [], frontier_set := [], explored := [], path := [],
            final_cost := 0, depth_limit := some d, depth_limit_hit := false,
            status := .running }

/-- The `while depth <= max_depth` loop of `iterative_deepening_search`,
with the number of remaining admissible depth values as the structural
argument.  Returns the final state together with the (ghost) list of
depth limits attempted. -/
def idsLoop (g : Grid) (fuel : Nat) : Nat → Int → SearchState → List Int →
    SearchState × List Int
  | 0, _, st, attempted => (st, attempted)
  | a + 1, depth, st, attempted =>
    if (searchLoop g .lifo fuel
          (update_frontier .lifo (resetForAttempt st depth) (mkStartNode g))).path = [] then
      idsLoop g fuel a (depth + 1)
        (searchLoop g .lifo fuel
          (update_frontier .lifo (resetForAttempt st depth) (mkStartNode g)))
        (attempted ++ [depth])
    else
      (searchLoop g .lifo fuel
         (update_frontier .lifo (resetForAttempt st depth) (mkStartNode g)),
       attempted ++ [depth])

/-- `UninformedSearch.iterative_deepening_search`: depth-limited attempts
with limits 0, 1, 2, … up to `self.depth_limit or 100` (again `or`
truthiness: a configured limit of `None` — or `0`, unreachable from the
constructor — yields the cap 100). -/
def iterative_deepening_search (g : Grid) (dlConfigured : Option Int) (fuel : Nat) :
    SearchState × List Int :=
  let max_depth : Int :=
    match dlConfigured with
    | none => 100
    | some d => if d = 0 then 100 else d
  idsLoop g fuel (max_depth + 1).toNat 0 (initSearchState dlConfigured) []

/-- A Python argument slot expecting a value of type `α`: either an
actual `α` or any other Python value (`other`). -/
inductive PyArg (α : Type) : Type where
  | val : α → PyArg α
  | other : PyArg α

/-- The errors raised by `UninformedSearch.__init__`; the spec's
taxonomy names both construction-time failures `InvalidArgument`. -/
inductive PyError : Type where
  | typeError (msg : String)
  | valueError (msg : String)
deriving DecidableEq, Repr

/-- `UninformedSearch.__init__`: reject a non-`Grid` grid argument
(`TypeError`), then a value outside the strategy enumeration
(`ValueError`), and only then build the engine state (start node plus
initialized search state with the clamped depth limit). -/
def uninformedSearchInit (grid : PyArg Grid) (strategy : PyArg UninformedSearchStrategy)
    (depth_limit : Option Int) :
    Except PyError (Grid × UninformedSearchStrategy × Node × SearchState) :=
  match grid with
  | .other => .error (.typeError "Grid must be an instance of Grid")
  | .val g =>
    match strategy with
    | .other => .error (.valueError "Invalid strategy")
    | .val s => .ok (g, s, mkStartNode g, initSearchState (clampDepthLimit depth_limit))

/-- The result of a Python rich-comparison method here: either a proper
bool or a `TypeError` *instance* returned (not raised) as the value. -/
inductive PyCmpResult : Type where
  | pyBool (b : Bool)
  | pyTypeError (msg : String)
deriving DecidableEq, Repr

/-- Python truthiness of a comparison result: a `TypeError` instance is
an ordinary object and is truthy. -/
def pyTruthy : PyCmpResult → Bool
  | .pyBool b => b
  | .pyTypeError _ => true

/-- `Node.__eq__`: state equality against another `Node`; for a
non-`Node` argument it *returns* a `TypeError` instance. -/
def node_eq (n : Node) (other : PyArg Node) : PyCmpResult :=
  match other with
  | .other => .pyTypeError "other must be an instance of Node"
  | .val m => .pyBool (decide (n.state = m.state))

/-- `Node.__lt__`: cost comparison against another `Node`; for a
non-`Node` argument it *returns* a `TypeError` instance. -/
def node_lt (n : Node) (other : PyArg Node) : PyCmpResult :=
  match other with
  | .other => .pyTypeError "other must be an instance of Node"
  | .val m => .pyBool (decide (n.cost < m.cost))

/-! ## Specification vocabulary: steps, paths, reachability -/

/-- A legal move of the search graph: `t` is one of the four axis-aligned
neighbors of `s`, lies within bounds and is not a barrier.  This is
exactly the admission test of `Grid.get_neighbors`. -/
def ValidStep (g : Grid) (s t : Pos) : Prop :=
  (∃ d ∈ directions, t = (s.1 + d.1, s.2 + d.2)) ∧ inBoundsP g t ∧ t ∉ g.barriers

instance (g : Grid) (s t : Pos) : Decidable (ValidStep g s t) := by
  unfold ValidStep; infer_instance

/-- `ReachN g n s`: the cell `s` is reachable from the start in exactly
`n` legal moves — i.e. there is a barrier-avoiding path of `n` steps
from start to `s`. -/
inductive ReachN (g : Grid) : Nat → Pos → Prop where
  | refl : ReachN g 0 g.start
  | tail {n : Nat} {s t : Pos} : ReachN g n s → ValidStep g s t → ReachN g (n + 1) t

/-- `s` is reachable from the start by some barrier-avoiding path. -/
def Reach (g : Grid) (s : Pos) : Prop :=
  ∃ n, ReachN g n s

/-- The parent chain of a node is a genuine barrier-avoiding path from
the start: the root is the start cell and every link is a `ValidStep`. -/
def ValidChain (g : Grid) : Node → Prop
  | .mk s none _ _ => s = g.start
  | .mk s (some q) _ _ => ValidStep g q.state s ∧ ValidChain g q

/-- Cost coherence of a node: its cumulative cost is the sum of the
step costs (the destination cell's `cellCost`) along its parent chain,
with the root at cost 0. -/
def CostOK (g : Grid) : Node → Prop
  | .mk _ none c _ => c = 0
  | .mk s (some q) c _ => c = q.cost + g.cellCost s ∧ CostOK g q

/-- The sum, over each step of a path, of the destination cell's step
cost. -/
def pathStepCost (g : Grid) : List Pos → Int
  | [] => 0
  | [_] => 0
  | _ :: b :: rest => g.cellCost b + pathStepCost g (b :: rest)

/-- The adjacent coordinates of `s`, spec side, in the fixed order up,
right, down, left, filtered to in-bounds non-barrier cells.  Stated from
the spec's words to compare against `Grid.get_neighbors`. -/
def specNeighborCoords (g : Grid) (s : Pos) : List Pos :=
  (directions.map (fun d => (s.1 + d.1, s.2 + d.2))).filter
    (fun t => decide (inBoundsP g t ∧ t ∉ g.barriers))

/-- `ChainSteps g s l`: starting from `s`, the list `l` is a sequence of
consecutive legal moves. -/
def ChainSteps (g : Grid) : Pos → List Pos → Prop
  | _, [] => True
  | s, t :: rest => ValidStep g s t ∧ ChainSteps g t rest

/-- A (nonempty) barrier-avoiding path listed start-first. -/
def IsPath (g : Grid) : List Pos → Prop
  | [] => False
  | s :: rest => s = g.start ∧ ChainSteps g s rest

/-- The canonical state at the head of the first `search` loop
iteration: the initialized engine state after
`self.update_frontier(self.start_node)`. -/
def initialRun (g : Grid) (ft : FrontierType) (dl : Option Int) : SearchState :=
  update_frontier ft (initSearchState dl) (mkStartNode g)

/-! ## Concrete grids used by the witnesses and counterexamples -/

/-- The repository's default 5x5 grid: start (0,0), goal (4,4), one
barrier at (2,2), no weighted cells. -/
def exGrid5 : Grid := ⟨5, 5, (0, 0), (4, 4), [(2, 2)], []⟩

/-- A 3x1 corridor: start (0,0), goal (2,0), no barriers. -/
def exGrid3 : Grid := ⟨3, 1, (0, 0), (2, 0), [], []⟩

/-- A 2x1 grid whose goal cell is itself a barrier, hence unreachable. -/
def exGridBlocked : Grid := ⟨2, 1, (0, 0), (1, 0), [(1, 0)], []⟩

/-- A 2x1 grid with the goal one step right of the start. -/
def exGrid2 : Grid := ⟨2, 1, (0, 0), (1, 0), [], []⟩

/-- A 3x3 grid with no barriers, for the mid-grid neighbor example. -/
def exGrid9 : Grid := ⟨3, 3, (0, 0), (2, 2), [], []⟩

/-- A 2x2 grid whose start and goal coincide. -/
def exGridSame : Grid := ⟨2, 2, (0, 0), (0, 0), [], []⟩

/-! ## Invariants and the termination measure -/

/-- All in-bounds cells of the grid, as a finite set. -/
def gridUniv (g : Grid) : Finset Pos :=
  Finset.Icc 0 (g.width - 1) ×ˢ Finset.Icc 0 (g.height - 1)

/-- The in-bounds cells not yet discovered (neither explored nor pending
in the frontier). -/
def freshSet (g : Grid) (st : SearchState) : Finset Pos :=
  (gridUniv g).filter (fun s => s ∉ st.explored ∧ s ∉ st.frontier_set)

/-- Termination measure of the search loop: it strictly decreases at
every running iteration. -/
def searchMeasure (g : Grid) (st : SearchState) : Nat :=
  2 * (freshSet g st).card + st.frontier.length

/-- Core structural invariant of the search loop, independent of the
frontier discipline and depth limit: frontier states are duplicate-free,
`frontier_set` mirrors the frontier exactly, pending states are never
explored, frontier nodes carry valid cost-coherent parent chains, and
the goal never enters the explored set. -/
structure CoreInv (g : Grid) (st : SearchState) : Prop where
  ndFront : (st.frontier.map Node.state).Nodup
  fsIff : ∀ s : Pos, s ∈ st.frontier_set ↔ s ∈ st.frontier.map Node.state
  fsExpl : ∀ s ∈ st.frontier_set, s ∉ st.explored
  chains : ∀ n ∈ st.frontier, ValidChain g n ∧ CostOK g n
  goalNE : g.goal ∉ st.explored

/-- Ghost invariant tying the explored set to the trace of expanded
nodes: the explored set is exactly the set of expanded states, and no
state is expanded twice. -/
structure ExpInv (st : SearchState) : Prop where
  expIff : ∀ s : Pos, s ∈ st.explored ↔ s ∈ st.expanded.map Node.state
  expNodup : (st.expanded.map Node.state).Nodup

/-- `ReachVia g front expl s`: the cell `s` can be reached from some
frontier state by legal moves through cells outside the explored set. -/
inductive ReachVia (g : Grid) (front expl : List Pos) : Pos → Prop where
  | base {s : Pos} : s ∈ front → ReachVia g front expl s
  | step {s t : Pos} : ReachVia g front expl s → ValidStep g s t → t ∉ expl →
      ReachVia g front expl t

/-- Coverage invariant for completeness: every reachable cell is either
already explored or still connected to the frontier through unexplored
cells. -/
def CoverInv (g : Grid) (st : SearchState) : Prop :=
  ∀ s : Pos, Reach g s → s ∈ st.explored ∨
    ReachVia g (st.frontier.map Node.state) st.explored s

/-- Depth bookkeeping invariant for runs with a configured depth limit
`L`: every frontier node's recorded depth equals its chain length and
stays within the limit. -/
def DepthInv (L : Int) (st : SearchState) : Prop :=
  ∀ n ∈ st.frontier, (n.chainLen : Int) = n.depth ∧ (n.depth : Int) ≤ L

/-- The breadth-first level invariant at level `d`: the FIFO frontier is
a block of level-`d` nodes followed by a block of level-`d+1` nodes;
every frontier node's chain length is minimal for its state; every cell
reachable within `d` steps has been discovered; and every explored
cell's legal successors have been discovered. -/
structure BfsLevels (g : Grid) (st : SearchState) (d : Nat) : Prop where
  split : ∃ A B, st.frontier = A ++ B ∧ (∀ n ∈ A, n.chainLen = d) ∧
    (∀ n ∈ B, n.chainLen = d + 1)
  tight : ∀ n ∈ st.frontier, ∀ k, ReachN g k n.state → n.chainLen ≤ k
  covered : ∀ s k, ReachN g k s → k ≤ d → s ∈ st.explored ∨ s ∈ st.frontier_set
  expAdj : ∀ s ∈ st.explored, ∀ t, ValidStep g s t → t ∈ st.explored ∨ t ∈ st.frontier_set

/-- The breadth-first invariant: some level `d` fits the state. -/
def BfsInv (g : Grid) (st : SearchState) : Prop :=
  ∃ d, BfsLevels g st d

/-! ## Basic lemmas: nodes, chains, costs -/

/-- Structural induction principle for the nested inductive `Node`. -/
theorem Node.inductionOn {motive : Node → Prop} (n : Node)
    (root : ∀ s c d, motive (.mk s none c d))
    (child : ∀ s q c d, motive q → motive (.mk s (some q) c d)) : motive n :=
  match n with
  | .mk s none c d => root s c d
  | .mk s (some q) c d => child s q c d (Node.inductionOn q root child)

theorem Node.state_mk (s : Pos) (p : Option Node) (c : Int) (d : Nat) :
    Node.state (.mk s p c d) = s := rfl

theorem Node.parent_mk (s : Pos) (p : Option Node) (c : Int) (d : Nat) :
    Node.parent (.mk s p c d) = p := rfl

theorem Node.cost_mk (s : Pos) (p : Option Node) (c : Int) (d : Nat) :
    Node.cost (.mk s p c d) = c := rfl

theorem Node.depth_mk (s : Pos) (p : Option Node) (c : Int) (d : Nat) :
    Node.depth (.mk s p c d) = d := rfl

theorem chainStatesRev_ne_nil (n : Node) : chainStatesRev n ≠ [] := by
  cases n with
  | mk s p c d => cases p <;> simp [chainStatesRev]

theorem reconstruct_path_ne_nil (n : Node) : reconstruct_path n ≠ [] := by
  unfold reconstruct_path
  simpa using chainStatesRev_ne_nil n

theorem reconstruct_path_parent (s : Pos) (q : Node) (c : Int) (d : Nat) :
    reconstruct_path (.mk s (some q) c d) = reconstruct_path q ++ [s] := by
  simp [reconstruct_path, chainStatesRev]

theorem reconstruct_path_root (s : Pos) (c : Int) (d : Nat) :
    reconstruct_path (.mk s none c d) = [s] := by
  simp [reconstruct_path, chainStatesRev]

theorem reconstruct_path_length (n : Node) :
    (reconstruct_path n).length = n.chainLen + 1 := by
  induction n using Node.inductionOn with
  | root s c d => simp [reconstruct_path_root, Node.chainLen]
  | child s q c d ih => simp [reconstruct_path_parent, Node.chainLen, ih]

theorem pathStepCost_append_last (g : Grid) :
    ∀ (l : List Pos) (s : Pos), l ≠ [] →
      pathStepCost g (l ++ [s]) = pathStepCost g l + g.cellCost s := by
  intro l
  induction l with
  | nil => intro s h; exact absurd rfl h
  | cons a rest ih =>
    intro s _
    cases rest with
    | nil => simp [pathStepCost]
    | cons b rest2 =>
      have hb := ih s (by simp)
      simp only [List.cons_append] at hb ⊢
      rw [show pathStepCost g (a :: b :: (rest2 ++ [s])) =
            g.cellCost b + pathStepCost g (b :: (rest2 ++ [s])) from rfl,
          show pathStepCost g (a :: b :: rest2) =
            g.cellCost b + pathStepCost g (b :: rest2) from rfl, hb]
      ring

theorem pathStepCost_reconstruct (g : Grid) (n : Node) (h : CostOK g n) :
    pathStepCost g (reconstruct_path n) = n.cost := by
  induction n using Node.inductionOn with
  | root s c d =>
    simp only [CostOK] at h
    simp [reconstruct_path_root, pathStepCost, h, Node.cost]
  | child s q c d ih =>
    simp only [CostOK] at h
    rw [reconstruct_path_parent,
      pathStepCost_append_last g _ _ (reconstruct_path_ne_nil q), ih h.2]
    simp [Node.cost, h.1]

theorem validChain_reachN (g : Grid) (n : Node) (h : ValidChain g n) :
    ReachN g n.chainLen n.state := by
  induction n using Node.inductionOn with
  | root s c d =>
    simp only [ValidChain] at h
    simp only [Node.chainLen, Node.state, h]
    exact .refl
  | child s q c d ih =>
    simp only [ValidChain] at h
    simp only [Node.chainLen, Node.state]
    exact .tail (ih h.2) h.1

theorem costOK_unit (g : Grid) (hunit : ∀ p : Pos, g.cellCost p = 1) (n : Node)
    (h : CostOK g n) : n.cost = (n.chainLen : Int) := by
  induction n using Node.inductionOn with
  | root s c d =>
    simp only [CostOK] at h
    simp [Node.cost, Node.chainLen, h]
  | child s q c d ih =>
    simp only [CostOK] at h
    have := ih h.2
    simp only [Node.cost, Node.chainLen] at *
    rw [h.1, this, hunit s]
    push_cast
    ring

theorem chainSteps_append_last (g : Grid) :
    ∀ (l : List Pos) (u0 u s : Pos), ChainSteps g u0 l →
      (u0 :: l).getLast? = some u → ValidStep g u s → ChainSteps g u0 (l ++ [s]) := by
  intro l
  induction l with
  | nil =>
    intro u0 u s hc hl hs
    simp at hl
    subst hl
    exact ⟨hs, trivial⟩
  | cons b rest ih =>
    intro u0 u s hc hl hs
    obtain ⟨h1, h2⟩ := hc
    refine ⟨h1, ih b u s h2 ?_ hs⟩
    simpa [List.getLast?_cons_cons] using hl

theorem validChain_isPath (g : Grid) (n : Node) (h : ValidChain g n) :
    IsPath g (reconstruct_path n) ∧ (reconstruct_path n).getLast? = some n.state := by
  induction n using Node.inductionOn with
  | root s c d =>
    simp only [ValidChain] at h
    subst h
    simp [reconstruct_path_root, IsPath, ChainSteps, Node.state]
  | child s q c d ih =>
    simp only [ValidChain] at h
    obtain ⟨hpath, hlast⟩ := ih h.2
    rw [reconstruct_path_parent]
    constructor
    · obtain ⟨a, rest, hrec⟩ : ∃ a rest, reconstruct_path q = a :: rest := by
        cases hr : reconstruct_path q with
        | nil => exact absurd hr (reconstruct_path_ne_nil q)
        | cons a rest => exact ⟨a, rest, rfl⟩
      rw [hrec]
      rw [hrec] at hpath hlast
      obtain ⟨hstart, hchain⟩ := hpath
      exact ⟨hstart, chainSteps_append_last g rest a q.state s hchain hlast
        (by simpa [Node.state] using h.1)⟩
    · simp [Node.state]

/-! ## Basic lemmas: set operations and pops -/

theorem mem_setAdd (l : List Pos) (s x : Pos) : x ∈ setAdd l s ↔ x = s ∨ x ∈ l := by
  unfold setAdd
  split <;> rename_i hmem
  · constructor
    · exact fun h => Or.inr h
    · rintro (rfl | h) <;> assumption
  · simp

theorem mem_setRemove (l : List Pos) (s x : Pos) :
    x ∈ setRemove l s ↔ x ∈ l ∧ x ≠ s := by
  simp [setRemove]

theorem popMin_eq_none (l : List Node) : popMin l = none ↔ l = [] := by
  cases l with
  | nil => simp [popMin]
  | cons n ns =>
    rw [popMin]
    cases hm : popMin ns with
    | none => simp
    | some p =>
      obtain ⟨m, r⟩ := p
      simp only [hm]
      constructor
      · intro h
        split at h <;> simp at h
      · intro h
        simp at h

theorem popMin_perm :
    ∀ (l : List Node) (c : Node) (rest : List Node),
      popMin l = some (c, rest) → l.Perm (c :: rest) := by
  intro l
  induction l with
  | nil => intro c rest h; simp [popMin] at h
  | cons n ns ih =>
    intro c rest h
    rw [popMin] at h
    cases hm : popMin ns with
    | none =>
      have hns : ns = [] := (popMin_eq_none ns).mp hm
      subst hns
      simp only [hm, Option.some.injEq, Prod.mk.injEq] at h
      obtain ⟨rfl, hr⟩ := h
      subst hr
      exact List.Perm.refl _
    | some p =>
      obtain ⟨m, rest2⟩ := p
      simp only [hm] at h
      split at h
      · simp only [Option.some.injEq, Prod.mk.injEq] at h
        obtain ⟨rfl, rfl⟩ := h
        exact List.Perm.refl _
      · simp only [Option.some.injEq, Prod.mk.injEq] at h
        obtain ⟨rfl, rfl⟩ := h
        exact ((ih m rest2 hm).cons n).trans (List.Perm.swap m n rest2)

theorem popF_perm (ft : FrontierType) (l : List Node) (c : Node) (rest : List Node)
    (h : popF ft l = some (c, rest)) : l.Perm (c :: rest) := by
  cases ft with
  | fifo =>
    cases l with
    | nil => simp [popF] at h
    | cons n ns =>
      simp only [popF, Option.some.injEq, Prod.mk.injEq] at h
      obtain ⟨rfl, rfl⟩ := h
      exact List.Perm.refl _
  | lifo =>
    rw [popF] at h
    cases hg : l.getLast? with
    | none => rw [hg] at h; simp at h
    | some n =>
      rw [hg] at h
      simp only [Option.some.injEq, Prod.mk.injEq] at h
      obtain ⟨rfl, rfl⟩ := h
      have h1 : l.dropLast ++ [n] = l :=
        List.dropLast_append_getLast? n (by simp [Option.mem_def, hg])
      have h2 : (l.dropLast ++ [n]).Perm (n :: l.dropLast) := List.perm_append_comm
      rw [h1] at h2
      exact h2
  | priority => exact popMin_perm l c rest h

theorem popF_eq_none (ft : FrontierType) (l : List Node) :
    popF ft l = none ↔ l = [] := by
  cases ft with
  | fifo => cases l <;> simp [popF]
  | lifo =>
    rw [popF]
    cases hg : l.getLast? with
    | none => simpa using List.getLast?_eq_none_iff.mp hg
    | some n =>
      constructor
      · intro h; simp at h
      · intro h
        subst h
        simp at hg
  | priority => simpa [popF] using popMin_eq_none l

theorem popF_singleton (ft : FrontierType) (n : Node) :
    popF ft [n] = some (n, []) := by
  cases ft <;> simp [popF, popMin]

/-! ## Neighbor-query lemmas -/

theorem get_neighbors_map_state_aux (g : Grid) (n : Node) :
    ∀ ds : List (Int × Int),
      ((ds.filterMap (fun d =>
        if inBoundsP g (n.state.1 + d.1, n.state.2 + d.2) then
          if (n.state.1 + d.1, n.state.2 + d.2) ∈ g.barriers then none
          else some (Node.mk (n.state.1 + d.1, n.state.2 + d.2) (some n)
            (n.cost + g.cellCost (n.state.1 + d.1, n.state.2 + d.2)) 0)
        else none)).map Node.state)
      = (ds.map (fun d => (n.state.1 + d.1, n.state.2 + d.2))).filter
          (fun t => decide (inBoundsP g t ∧ t ∉ g.barriers)) := by
  intro ds
  induction ds with
  | nil => rfl
  | cons d rest ih =>
    by_cases hin : inBoundsP g (n.state.1 + d.1, n.state.2 + d.2)
    · by_cases hbar : (n.state.1 + d.1, n.state.2 + d.2) ∈ g.barriers
      · simp only [List.filterMap_cons, List.map_cons, List.filter_cons, if_pos hin,
          if_pos hbar, hin, hbar, not_true_eq_false, and_false, decide_False,
          Bool.false_eq_true, if_false]
        exact ih
      · simp only [List.filterMap_cons, List.map_cons, List.filter_cons, if_pos hin,
          if_neg hbar, hin, hbar, not_false_eq_true, and_true, true_and, decide_True,
          if_true, Node.state_mk]
        exact congrArg _ ih
    · simp only [List.filterMap_cons, List.map_cons, List.filter_cons, if_neg hin, hin,
        false_and, decide_False, Bool.false_eq_true, if_false]
      exact ih

theorem get_neighbors_map_state (g : Grid) (n : Node) :
    (g.get_neighbors n).map Node.state = specNeighborCoords g n.state := by
  unfold Grid.get_neighbors specNeighborCoords
  exact get_neighbors_map_state_aux g n directions

theorem mem_specNeighborCoords (g : Grid) (s t : Pos) :
    t ∈ specNeighborCoords g s ↔ ValidStep g s t := by
  unfold specNeighborCoords ValidStep
  rw [List.mem_filter]
  simp only [List.mem_map, decide_eq_true_eq]
  constructor
  · rintro ⟨⟨d, hd, rfl⟩, h2⟩
    exact ⟨⟨d, hd, rfl⟩, h2⟩
  · rintro ⟨⟨d, hd, rfl⟩, h2⟩
    exact ⟨⟨d, hd, rfl⟩, h2⟩

theorem get_neighbors_state_iff (g : Grid) (n : Node) (t : Pos) :
    t ∈ (g.get_neighbors n).map Node.state ↔ ValidStep g n.state t := by
  rw [get_neighbors_map_state, mem_specNeighborCoords]

theorem mem_get_neighbors (g : Grid) (n nb : Node) (h : nb ∈ g.get_neighbors n) :
    ValidStep g n.state nb.state ∧
      nb = Node.mk nb.state (some n) (n.cost + g.cellCost nb.state) 0 := by
  unfold Grid.get_neighbors at h
  rw [List.mem_filterMap] at h
  obtain ⟨d, hd, hf⟩ := h
  by_cases hin : inBoundsP g (n.state.1 + d.1, n.state.2 + d.2)
  · rw [if_pos hin] at hf
    by_cases hbar : (n.state.1 + d.1, n.state.2 + d.2) ∈ g.barriers
    · rw [if_pos hbar] at hf
      exact absurd hf (by simp)
    · rw [if_neg hbar] at hf
      rw [Option.some_inj] at hf
      subst hf
      exact ⟨⟨⟨d, hd, rfl⟩, hin, hbar⟩, rfl⟩
  · rw [if_neg hin] at hf
    exact absurd hf (by simp)

/-! ## Expansion-step lemmas -/

theorem update_frontier_of_not_mem (ft : FrontierType) (st : SearchState) (node : Node)
    (h : node.state ∉ st.frontier_set) :
    update_frontier ft st node =
      { st with frontier := st.frontier ++ [node],
                frontier_set := node.state :: st.frontier_set } := by
  have hadd : setAdd st.frontier_set node.state = node.state :: st.frontier_set := by
    unfold setAdd
    rw [if_neg h]
  cases ft <;> simp [update_frontier, hadd, h]

theorem adjDepth_state (dl : Option Int) (cur nb : Node) :
    (adjDepth dl cur nb).state = nb.state := by
  cases dl <;> rfl

theorem adjDepth_parent (dl : Option Int) (cur nb : Node) (h : nb.parent = some cur) :
    (adjDepth dl cur nb).parent = some cur := by
  cases dl with
  | none => exact h
  | some L => rfl

theorem adjDepth_chainLen (dl : Option Int) (cur nb : Node) (h : nb.parent = some cur) :
    (adjDepth dl cur nb).chainLen = cur.chainLen + 1 := by
  cases dl with
  | none =>
    cases nb with
    | mk s p c d =>
      simp only [Node.parent] at h
      subst h
      rfl
  | some L => rfl

theorem adjDepth_props (g : Grid) (dl : Option Int) (cur nb : Node)
    (h : nb ∈ g.get_neighbors cur) (hchain : ValidChain g cur) (hcost : CostOK g cur) :
    ValidChain g (adjDepth dl cur nb) ∧ CostOK g (adjDepth dl cur nb) ∧
      (adjDepth dl cur nb).state = nb.state ∧
      (adjDepth dl cur nb).chainLen = cur.chainLen + 1 := by
  obtain ⟨hstep, hnb⟩ := mem_get_neighbors g cur nb h
  have hparent : nb.parent = some cur := by
    rw [hnb]
    exact Node.parent_mk _ _ _ _
  have hcostnb : nb.cost = cur.cost + g.cellCost nb.state := by
    conv_lhs => rw [hnb]
    exact Node.cost_mk _ _ _ _
  have hvc : ∀ c0 d0, ValidChain g (Node.mk nb.state (some cur) c0 d0) := by
    intro c0 d0
    simp only [ValidChain]
    exact ⟨hstep, hchain⟩
  have hco : ∀ d0, CostOK g (Node.mk nb.state (some cur)
      (cur.cost + g.cellCost nb.state) d0) := by
    intro d0
    simp only [CostOK]
    exact ⟨by simp, hcost⟩
  cases dl with
  | none =>
    refine ⟨?_, ?_, adjDepth_state _ cur nb, adjDepth_chainLen _ cur nb hparent⟩
    · show ValidChain g nb
      rw [hnb]
      exact hvc _ _
    · show CostOK g nb
      rw [hnb]
      exact hco _
  | some L =>
    refine ⟨?_, ?_, adjDepth_state _ cur nb, adjDepth_chainLen _ cur nb hparent⟩
    · exact hvc _ _
    · show CostOK g (Node.mk nb.state (some cur) nb.cost (cur.depth + 1))
      rw [hcostnb]
      exact hco _

theorem expandNeighbor_spec (ft : FrontierType) (cur : Node) (s : SearchState) (nb : Node) :
    (expandNeighbor ft cur s nb = s ∧
      (nb.state ∈ s.explored ∨ nb.state ∈ s.frontier_set)) ∨
    (nb.state ∉ s.explored ∧ nb.state ∉ s.frontier_set ∧
      expandNeighbor ft cur s nb =
        { s with frontier := s.frontier ++ [adjDepth s.depth_limit cur nb],
                 frontier_set := nb.state :: s.frontier_set }) := by
  unfold expandNeighbor
  rw [adjDepth_state]
  by_cases h1 : nb.state ∉ s.explored ∧ nb.state ∉ s.frontier_set
  · right
    refine ⟨h1.1, h1.2, ?_⟩
    rw [if_pos h1, update_frontier_of_not_mem ft s _ (by rw [adjDepth_state]; exact h1.2)]
    rw [adjDepth_state]
  · left
    rw [if_neg h1]
    refine ⟨rfl, ?_⟩
    rcases Decidable.not_and_iff_or_not.mp h1 with h | h
    · exact Or.inl (not_not.mp h)
    · exact Or.inr (not_not.mp h)

theorem foldl_expand_fields (ft : FrontierType) (cur : Node) :
    ∀ (nbs : List Node) (s : SearchState),
      (nbs.foldl (expandNeighbor ft cur) s).explored = s.explored ∧
      (nbs.foldl (expandNeighbor ft cur) s).path = s.path ∧
      (nbs.foldl (expandNeighbor ft cur) s).final_cost = s.final_cost ∧
      (nbs.foldl (expandNeighbor ft cur) s).depth_limit = s.depth_limit ∧
      (nbs.foldl (expandNeighbor ft cur) s).depth_limit_hit = s.depth_limit_hit ∧
      (nbs.foldl (expandNeighbor ft cur) s).status = s.status ∧
      (nbs.foldl (expandNeighbor ft cur) s).pops = s.pops ∧
      (nbs.foldl (expandNeighbor ft cur) s).expanded = s.expanded := by
  intro nbs
  induction nbs with
  | nil => intro s; exact ⟨rfl, rfl, rfl, rfl, rfl, rfl, rfl, rfl⟩
  | cons nb rest ih =>
    intro s
    rw [List.foldl_cons]
    rcases expandNeighbor_spec ft cur s nb with ⟨heq, _⟩ | ⟨_, _, heq⟩ <;>
      · rw [heq]
        exact ih _

theorem foldl_expand_frontier (ft : FrontierType) (cur : Node) :
    ∀ (nbs : List Node) (s : SearchState),
      ∃ ins : List Node,
        (nbs.foldl (expandNeighbor ft cur) s).frontier = s.frontier ++ ins ∧
        (nbs.foldl (expandNeighbor ft cur) s).frontier_set
          = (ins.map Node.state).reverse ++ s.frontier_set ∧
        (∀ nn ∈ ins, ∃ nb ∈ nbs, nn = adjDepth s.depth_limit cur nb) ∧
        (∀ t ∈ ins.map Node.state, t ∉ s.frontier_set ∧ t ∉ s.explored) ∧
        (ins.map Node.state).Nodup := by
  intro nbs
  induction nbs with
  | nil =>
    intro s
    exact ⟨[], by simp, by simp, by simp, by simp, by simp⟩
  | cons nb rest ih =>
    intro s
    rw [List.foldl_cons]
    rcases expandNeighbor_spec ft cur s nb with ⟨heq, _⟩ | ⟨hex, hfs, heq⟩
    · rw [heq]
      obtain ⟨ins, h1, h2, h3, h4, h5⟩ := ih s
      exact ⟨ins, h1, h2, fun nn hnn => by
        obtain ⟨nb2, hnb2, he⟩ := h3 nn hnn
        exact ⟨nb2, List.mem_cons_of_mem nb hnb2, he⟩, h4, h5⟩
    · rw [heq]
      obtain ⟨ins, h1, h2, h3, h4, h5⟩ := ih
        { s with frontier := s.frontier ++ [adjDepth s.depth_limit cur nb],
                 frontier_set := nb.state :: s.frontier_set }
      refine ⟨adjDepth s.depth_limit cur nb :: ins, ?_, ?_, ?_, ?_, ?_⟩
      · rw [h1]
        simp
      · rw [h2]
        simp only [List.map_cons, List.reverse_cons, adjDepth_state]
        simp
      · intro nn hnn
        rcases List.mem_cons.mp hnn with rfl | hnn2
        · exact ⟨nb, List.mem_cons_self nb rest, rfl⟩
        · obtain ⟨nb2, hnb2, he⟩ := h3 nn hnn2
          exact ⟨nb2, List.mem_cons_of_mem nb hnb2, he⟩
      · intro t ht
        simp only [List.map_cons, List.mem_cons, adjDepth_state] at ht
        rcases ht with rfl | ht2
        · exact ⟨hfs, hex⟩
        · have := h4 t ht2
          simp only [List.mem_cons] at this
          exact ⟨fun hm => this.1 (Or.inr hm), this.2⟩
      · simp only [List.map_cons, adjDepth_state, List.nodup_cons]
        exact ⟨fun hm => (h4 nb.state hm).1 (List.mem_cons_self _ _), h5⟩

theorem foldl_expand_covers (ft : FrontierType) (cur : Node) :
    ∀ (nbs : List Node) (s : SearchState) (nb : Node), nb ∈ nbs →
      nb.state ∈ s.explored ∨
        nb.state ∈ (nbs.foldl (expandNeighbor ft cur) s).frontier_set := by
  intro nbs
  induction nbs with
  | nil => intro s nb h; simp at h
  | cons nb0 rest ih =>
    intro s nb hmem
    rw [List.foldl_cons]
    rcases expandNeighbor_spec ft cur s nb0 with ⟨heq, hcase⟩ | ⟨hex, hfs, heq⟩
    · rw [heq]
      rcases List.mem_cons.mp hmem with rfl | h2
      · rcases hcase with h | h
        · exact Or.inl h
        · right
          obtain ⟨ins, _, h2', _, _, _⟩ := foldl_expand_frontier ft cur rest s
          rw [h2']
          exact List.mem_append_right _ h
      · exact ih s nb h2
    · rw [heq]
      rcases List.mem_cons.mp hmem with rfl | h2
      · right
        obtain ⟨ins, _, h2', _, _, _⟩ := foldl_expand_frontier ft cur rest _
        rw [h2']
        exact List.mem_append_right _ (List.mem_cons_self _ _)
      · have := ih { s with frontier := s.frontier ++ [adjDepth s.depth_limit cur nb0],
                            frontier_set := nb0.state :: s.frontier_set } nb h2
        simpa using this

/-! ## Search-step case analysis -/

theorem is_goal_state_true_iff (g : Grid) (n : Node) :
    g.is_goal_state n = true ↔ n.state = g.goal := by
  simp [Grid.is_goal_state]

theorem is_goal_state_false_iff (g : Grid) (n : Node) :
    g.is_goal_state n = false ↔ n.state ≠ g.goal := by
  simp [Grid.is_goal_state]

theorem searchStep_empty (g : Grid) (ft : FrontierType) (st : SearchState)
    (h : popF ft st.frontier = none) :
    searchStep g ft st = { st with status := .exhausted } := by
  unfold searchStep
  rw [h]

theorem searchStep_pop_goal (g : Grid) (ft : FrontierType) (st : SearchState)
    (cur : Node) (rest : List Node) (hpop : popF ft st.frontier = some (cur, rest))
    (hgoal : g.is_goal_state cur = true) :
    searchStep g ft st =
      { st with frontier := rest,
                frontier_set := setRemove st.frontier_set cur.state,
                pops := st.pops ++ [cur],
                path := reconstruct_path cur,
                final_cost := cur.cost,
                status := .goalFound } := by
  unfold searchStep
  rw [hpop]
  simp [hgoal]

theorem searchStep_pop_depth (g : Grid) (ft : FrontierType) (st : SearchState)
    (cur : Node) (rest : List Node) (hpop : popF ft st.frontier = some (cur, rest))
    (hgoal : g.is_goal_state cur = false)
    (hdl : depthLimitReached st.depth_limit cur.depth = true) :
    searchStep g ft st =
      { st with frontier := rest,
                frontier_set := setRemove st.frontier_set cur.state,
                pops := st.pops ++ [cur],
                depth_limit_hit := true,
                final_cost := cur.cost,
                status := .depthLimitHit } := by
  unfold searchStep
  rw [hpop]
  simp [hgoal, hdl]

theorem searchStep_pop_expand (g : Grid) (ft : FrontierType) (st : SearchState)
    (cur : Node) (rest : List Node) (hpop : popF ft st.frontier = some (cur, rest))
    (hgoal : g.is_goal_state cur = false)
    (hdl : depthLimitReached st.depth_limit cur.depth = false) :
    searchStep g ft st = (g.get_neighbors cur).foldl (expandNeighbor ft cur)
      { st with frontier := rest,
                frontier_set := setRemove st.frontier_set cur.state,
                pops := st.pops ++ [cur],
                explored := setAdd st.explored cur.state,
                expanded := st.expanded ++ [cur] } := by
  unfold searchStep
  rw [hpop]
  simp [hgoal, hdl]

theorem searchLoop_stable (g : Grid) (ft : FrontierType) (fuel : Nat) (st : SearchState)
    (h : st.status ≠ .running) : searchLoop g ft fuel st = st := by
  cases fuel with
  | zero => rfl
  | succ f =>
    rw [searchLoop, if_neg h]

theorem searchStep_depth_limit (g : Grid) (ft : FrontierType) (st : SearchState) :
    (searchStep g ft st).depth_limit = st.depth_limit := by
  cases hpop : popF ft st.frontier with
  | none => rw [searchStep_empty g ft st hpop]
  | some p =>
    obtain ⟨cur, rest⟩ := p
    cases hgoal : g.is_goal_state cur with
    | true => rw [searchStep_pop_goal g ft st cur rest hpop hgoal]
    | false =>
      cases hdl : depthLimitReached st.depth_limit cur.depth with
      | true => rw [searchStep_pop_depth g ft st cur rest hpop hgoal hdl]
      | false =>
        rw [searchStep_pop_expand g ft st cur rest hpop hgoal hdl]
        exact (foldl_expand_fields ft cur _ _).2.2.2.1

theorem searchLoop_depth_limit (g : Grid) (ft : FrontierType) :
    ∀ (fuel : Nat) (st : SearchState),
      (searchLoop g ft fuel st).depth_limit = st.depth_limit := by
  intro fuel
  induction fuel with
  | zero => intro st; rfl
  | succ f ih =>
    intro st
    rw [searchLoop]
    by_cases h : st.status = .running
    · rw [if_pos h, ih _, searchStep_depth_limit]
    · rw [if_neg h]

/-! ## Core invariant preservation -/

theorem pop_facts (g : Grid) (ft : FrontierType) (st : SearchState) (inv : CoreInv g st)
    (cur : Node) (rest : List Node) (hpop : popF ft st.frontier = some (cur, rest)) :
    cur ∈ st.frontier ∧
    (∀ n ∈ rest, n ∈ st.frontier) ∧
    cur.state ∉ rest.map Node.state ∧
    (rest.map Node.state).Nodup ∧
    (∀ s : Pos, s ∈ setRemove st.frontier_set cur.state ↔ s ∈ rest.map Node.state) := by
  have hperm := popF_perm ft _ cur rest hpop
  have hpermS : (st.frontier.map Node.state).Perm (cur.state :: rest.map Node.state) := by
    simpa using hperm.map Node.state
  have hnd : (cur.state :: rest.map Node.state).Nodup :=
    hpermS.nodup_iff.mp inv.ndFront
  refine ⟨hperm.mem_iff.mpr (List.mem_cons_self _ _), ?_, ?_, ?_, ?_⟩
  · intro n hn
    exact hperm.mem_iff.mpr (List.mem_cons_of_mem _ hn)
  · exact (List.nodup_cons.mp hnd).1
  · exact (List.nodup_cons.mp hnd).2
  · intro s
    rw [mem_setRemove]
    constructor
    · rintro ⟨hs, hne⟩
      have hmem : s ∈ cur.state :: rest.map Node.state :=
        hpermS.mem_iff.mp ((inv.fsIff s).mp hs)
      rcases List.mem_cons.mp hmem with rfl | h
      · exact absurd rfl hne
      · exact h
    · intro hs
      refine ⟨(inv.fsIff s).mpr (hpermS.mem_iff.mpr (List.mem_cons_of_mem _ hs)), ?_⟩
      rintro rfl
      exact (List.nodup_cons.mp hnd).1 hs

theorem coreInv_searchStep (g : Grid) (ft : FrontierType) (st : SearchState)
    (inv : CoreInv g st) : CoreInv g (searchStep g ft st) := by
  cases hpop : popF ft st.frontier with
  | none =>
    rw [searchStep_empty g ft st hpop]
    exact ⟨inv.ndFront, inv.fsIff, inv.fsExpl, inv.chains, inv.goalNE⟩
  | some p =>
    obtain ⟨cur, rest⟩ := p
    obtain ⟨hcur, hsub, hnotin, hndrest, hiff⟩ := pop_facts g ft st inv cur rest hpop
    cases hgoal : g.is_goal_state cur with
    | true =>
      rw [searchStep_pop_goal g ft st cur rest hpop hgoal]
      exact ⟨hndrest, hiff,
        fun s hs => inv.fsExpl s ((mem_setRemove _ _ s).mp hs).1,
        fun n hn => inv.chains n (hsub n hn), inv.goalNE⟩
    | false =>
      have hne : cur.state ≠ g.goal := (is_goal_state_false_iff g cur).mp hgoal
      cases hdl : depthLimitReached st.depth_limit cur.depth with
      | true =>
        rw [searchStep_pop_depth g ft st cur rest hpop hgoal hdl]
        exact ⟨hndrest, hiff,
          fun s hs => inv.fsExpl s ((mem_setRemove _ _ s).mp hs).1,
          fun n hn => inv.chains n (hsub n hn), inv.goalNE⟩
      | false =>
        rw [searchStep_pop_expand g ft st cur rest hpop hgoal hdl]
        obtain ⟨ins, hfr, hfs, hins, hfresh, hnd⟩ := foldl_expand_frontier ft cur
          (g.get_neighbors cur)
          { st with frontier := rest,
                    frontier_set := setRemove st.frontier_set cur.state,
                    pops := st.pops ++ [cur],
                    explored := setAdd st.explored cur.state,
                    expanded := st.expanded ++ [cur] }
        obtain ⟨hexp, _, _, _, _, _, _, _⟩ := foldl_expand_fields ft cur
          (g.get_neighbors cur)
          { st with frontier := rest,
                    frontier_set := setRemove st.frontier_set cur.state,
                    pops := st.pops ++ [cur],
                    explored := setAdd st.explored cur.state,
                    expanded := st.expanded ++ [cur] }
        have hinsFresh : ∀ t ∈ ins.map Node.state,
            t ∉ setRemove st.frontier_set cur.state ∧ t ∉ setAdd st.explored cur.state :=
          hfresh
        have hinsStNotFs : ∀ t ∈ ins.map Node.state, t ∉ st.frontier_set := by
          intro t ht
          obtain ⟨h1, h2⟩ := hinsFresh t ht
          intro hmem
          have hne2 : t ≠ cur.state := by
            intro heq
            exact h2 ((mem_setAdd _ _ _).mpr (Or.inl heq))
          exact h1 ((mem_setRemove _ _ _).mpr ⟨hmem, hne2⟩)
        constructor
        · -- ndFront
          rw [hfr, List.map_append]
          refine List.Nodup.append hndrest hnd ?_
          intro t ht1 ht2
          exact hinsStNotFs t ht2 ((inv.fsIff t).mpr
            (by
              have hperm := popF_perm ft _ cur rest hpop
              have : t ∈ st.frontier.map Node.state := by
                rw [List.mem_map] at ht1 ⊢
                obtain ⟨n, hn, rfl⟩ := ht1
                exact ⟨n, hsub n hn, rfl⟩
              exact this))
        · -- fsIff
          intro s
          rw [hfs, hfr, List.map_append, List.mem_append, List.mem_append,
            List.mem_reverse]
          constructor
          · rintro (h | h)
            · exact Or.inr h
            · exact Or.inl ((hiff s).mp h)
          · rintro (h | h)
            · exact Or.inr ((hiff s).mpr h)
            · exact Or.inl h
        · -- fsExpl
          intro s hs
          rw [hfs, List.mem_append, List.mem_reverse] at hs
          rw [hexp]
          rcases hs with h | h
          · exact (hinsFresh s h).2
          · obtain ⟨hmem, hne2⟩ := (mem_setRemove _ _ s).mp h
            rw [mem_setAdd]
            rintro (rfl | hc)
            · exact hne2 rfl
            · exact inv.fsExpl s hmem hc
        · -- chains
          intro n hn
          rw [hfr, List.mem_append] at hn
          rcases hn with h | h
          · exact inv.chains n (hsub n h)
          · obtain ⟨nb, hnb, rfl⟩ := hins n h
            obtain ⟨hchain, hcost⟩ := inv.chains cur hcur
            obtain ⟨h1, h2, _, _⟩ := adjDepth_props g _ cur nb hnb hchain hcost
            exact ⟨h1, h2⟩
        · -- goalNE
          rw [hexp, mem_setAdd]
          rintro (h | h)
          · exact hne h.symm
          · exact inv.goalNE h

theorem expInv_searchStep (g : Grid) (ft : FrontierType) (st : SearchState)
    (inv : CoreInv g st) (einv : ExpInv st) : ExpInv (searchStep g ft st) := by
  cases hpop : popF ft st.frontier with
  | none =>
    rw [searchStep_empty g ft st hpop]
    exact ⟨einv.expIff, einv.expNodup⟩
  | some p =>
    obtain ⟨cur, rest⟩ := p
    obtain ⟨hcur, _, _, _, _⟩ := pop_facts g ft st inv cur rest hpop
    cases hgoal : g.is_goal_state cur with
    | true =>
      rw [searchStep_pop_goal g ft st cur rest hpop hgoal]
      exact ⟨einv.expIff, einv.expNodup⟩
    | false =>
      cases hdl : depthLimitReached st.depth_limit cur.depth with
      | true =>
        rw [searchStep_pop_depth g ft st cur rest hpop hgoal hdl]
        exact ⟨einv.expIff, einv.expNodup⟩
      | false =>
        rw [searchStep_pop_expand g ft st cur rest hpop hgoal hdl]
        obtain ⟨hexp, _, _, _, _, _, _, hexpd⟩ := foldl_expand_fields ft cur
          (g.get_neighbors cur)
          { st with frontier := rest,
                    frontier_set := setRemove st.frontier_set cur.state,
                    pops := st.pops ++ [cur],
                    explored := setAdd st.explored cur.state,
                    expanded := st.expanded ++ [cur] }
        have hcurFs : cur.state ∈ st.frontier_set :=
          (inv.fsIff cur.state).mpr (List.mem_map_of_mem Node.state hcur)
        have hcurNE : cur.state ∉ st.explored := inv.fsExpl cur.state hcurFs
        constructor
        · intro s
          rw [hexp, hexpd, mem_setAdd, List.map_append, List.mem_append]
          rw [einv.expIff s]
          simp only [List.map_cons, List.map_nil, List.mem_singleton]
          constructor
          · rintro (rfl | h)
            · exact Or.inr rfl
            · exact Or.inl h
          · rintro (h | rfl)
            · exact Or.inr h
            · exact Or.inl rfl
        · rw [hexpd, List.map_append]
          simp only [List.map_cons, List.map_nil]
          rw [List.nodup_append]
          refine ⟨einv.expNodup, List.nodup_singleton _, ?_⟩
          intro t ht hmem
          simp only [List.mem_singleton] at hmem
          subst hmem
          exact hcurNE ((einv.expIff cur.state).mpr ht)

/-! ## Termination of the search loop -/

theorem mem_gridUniv (g : Grid) (p : Pos) : p ∈ gridUniv g ↔ inBoundsP g p := by
  unfold gridUniv inBoundsP
  rw [Finset.mem_product]
  simp only [Finset.mem_Icc]
  omega

theorem searchStep_status_running (g : Grid) (ft : FrontierType) (st : SearchState)
    (h : (searchStep g ft st).status = .running) :
    ∃ cur rest, popF ft st.frontier = some (cur, rest) ∧
      g.is_goal_state cur = false ∧
      depthLimitReached st.depth_limit cur.depth = false ∧
      searchStep g ft st = (g.get_neighbors cur).foldl (expandNeighbor ft cur)
        { st with frontier := rest,
                  frontier_set := setRemove st.frontier_set cur.state,
                  pops := st.pops ++ [cur],
                  explored := setAdd st.explored cur.state,
                  expanded := st.expanded ++ [cur] } := by
  cases hpop : popF ft st.frontier with
  | none =>
    rw [searchStep_empty g ft st hpop] at h
    simp at h
  | some p =>
    obtain ⟨cur, rest⟩ := p
    cases hgoal : g.is_goal_state cur with
    | true =>
      rw [searchStep_pop_goal g ft st cur rest hpop hgoal] at h
      simp at h
    | false =>
      cases hdl : depthLimitReached st.depth_limit cur.depth with
      | true =>
        rw [searchStep_pop_depth g ft st cur rest hpop hgoal hdl] at h
        simp at h
      | false =>
        exact ⟨cur, rest, rfl, hgoal, hdl,
          searchStep_pop_expand g ft st cur rest hpop hgoal hdl⟩

theorem searchMeasure_decreases (g : Grid) (ft : FrontierType) (st : SearchState)
    (hrun2 : (searchStep g ft st).status = .running) :
    searchMeasure g (searchStep g ft st) < searchMeasure g st := by
  obtain ⟨cur, rest, hpop, hgoal, hdl, heq⟩ := searchStep_status_running g ft st hrun2
  set st2 : SearchState :=
    { st with frontier := rest,
              frontier_set := setRemove st.frontier_set cur.state,
              pops := st.pops ++ [cur],
              explored := setAdd st.explored cur.state,
              expanded := st.expanded ++ [cur] } with hst2
  obtain ⟨ins, hfr, hfs, hins, hfresh, hnd⟩ :=
    foldl_expand_frontier ft cur (g.get_neighbors cur) st2
  obtain ⟨hexp, _, _, _, _, _, _, _⟩ := foldl_expand_fields ft cur (g.get_neighbors cur) st2
  rw [heq]
  have hlen : st.frontier.length = rest.length + 1 := by
    have := (popF_perm ft _ cur rest hpop).length_eq
    simpa using this
  have hlenF : ((g.get_neighbors cur).foldl (expandNeighbor ft cur) st2).frontier.length
      = rest.length + ins.length := by
    rw [hfr]
    simp [hst2]
  -- the inserted states form a fresh subset of the measure's fresh set
  have hinsBounds : ∀ t ∈ ins.map Node.state, inBoundsP g t := by
    intro t ht
    rw [List.mem_map] at ht
    obtain ⟨nn, hnn, rfl⟩ := ht
    obtain ⟨nb, hnb, rfl⟩ := hins nn hnn
    rw [adjDepth_state]
    exact (mem_get_neighbors g cur nb hnb).1.2.1
  have hinsFreshSt : ∀ t ∈ ins.map Node.state,
      t ∉ st.explored ∧ t ∉ st.frontier_set := by
    intro t ht
    obtain ⟨h1, h2⟩ := hfresh t ht
    have h2' : t ∉ setAdd st.explored cur.state := h2
    have hne2 : t ≠ cur.state := fun heq => h2' ((mem_setAdd _ _ _).mpr (Or.inl heq))
    constructor
    · intro hc
      exact h2' ((mem_setAdd _ _ _).mpr (Or.inr hc))
    · intro hc
      exact h1 ((mem_setRemove _ _ _).mpr ⟨hc, hne2⟩)
  have hsubI : (ins.map Node.state).toFinset ⊆ freshSet g st := by
    intro t ht
    rw [List.mem_toFinset] at ht
    rw [freshSet, Finset.mem_filter, mem_gridUniv]
    exact ⟨hinsBounds t ht, (hinsFreshSt t ht).1, (hinsFreshSt t ht).2⟩
  have hcardI : (ins.map Node.state).toFinset.card = ins.length := by
    rw [List.toFinset_card_of_nodup hnd, List.length_map]
  have hsubF : freshSet g ((g.get_neighbors cur).foldl (expandNeighbor ft cur) st2)
      ⊆ freshSet g st \ (ins.map Node.state).toFinset := by
    intro t ht
    rw [freshSet, Finset.mem_filter, mem_gridUniv] at ht
    obtain ⟨htb, hte, htf⟩ := ht
    rw [hexp] at hte
    rw [hfs] at htf
    have hte' : t ∉ st.explored := fun hc => hte ((mem_setAdd _ _ _).mpr (Or.inr hc))
    have hne2 : t ≠ cur.state := fun heq => hte ((mem_setAdd _ _ _).mpr (Or.inl heq))
    have htI : t ∉ ins.map Node.state := by
      intro hc
      exact htf (List.mem_append_left _ (List.mem_reverse.mpr hc))
    have htf' : t ∉ st.frontier_set := by
      intro hc
      exact htf (List.mem_append_right _ ((mem_setRemove _ _ _).mpr ⟨hc, hne2⟩))
    rw [Finset.mem_sdiff, freshSet, Finset.mem_filter, mem_gridUniv, List.mem_toFinset]
    exact ⟨⟨htb, hte', htf'⟩, htI⟩
  have hcard1 : (freshSet g ((g.get_neighbors cur).foldl (expandNeighbor ft cur) st2)).card
      ≤ (freshSet g st).card - ins.length := by
    calc (freshSet g ((g.get_neighbors cur).foldl (expandNeighbor ft cur) st2)).card
        ≤ (freshSet g st \ (ins.map Node.state).toFinset).card :=
          Finset.card_le_card hsubF
      _ = (freshSet g st).card - (ins.map Node.state).toFinset.card :=
          Finset.card_sdiff hsubI
      _ = (freshSet g st).card - ins.length := by rw [hcardI]
  have hcard2 : ins.length ≤ (freshSet g st).card := by
    calc ins.length = (ins.map Node.state).toFinset.card := hcardI.symm
      _ ≤ (freshSet g st).card := Finset.card_le_card hsubI
  unfold searchMeasure
  rw [hlenF, hlen]
  omega

theorem searchLoop_terminates (g : Grid) (ft : FrontierType) :
    ∀ (fuel : Nat) (st : SearchState),
      searchMeasure g st < fuel → (searchLoop g ft fuel st).status ≠ .running := by
  intro fuel
  induction fuel with
  | zero => intro st hm; omega
  | succ f ih =>
    intro st hm
    by_cases hrun : st.status = .running
    · rw [searchLoop, if_pos hrun]
      cases hs : (searchStep g ft st).status with
      | running =>
        refine ih _ ?_
        have := searchMeasure_decreases g ft st hs
        omega
      | goalFound =>
        rw [searchLoop_stable _ _ _ _ (by rw [hs]; simp), hs]
        simp
      | exhausted =>
        rw [searchLoop_stable _ _ _ _ (by rw [hs]; simp), hs]
        simp
      | depthLimitHit =>
        rw [searchLoop_stable _ _ _ _ (by rw [hs]; simp), hs]
        simp
    · rw [searchLoop, if_neg hrun]
      exact hrun

/-! ## The canonical initial state -/

theorem initialRun_eq (g : Grid) (ft : FrontierType) (dl : Option Int) :
    initialRun g ft dl =
      { frontier := [mkStartNode g], frontier_set := [g.start], explored := [],
        path := [], final_cost := 0, depth_limit := dl, depth_limit_hit := false,
        status := .running, pops := [], expanded := [] } := by
  unfold initialRun initSearchState
  rw [update_frontier_of_not_mem _ _ _ (by simp)]
  rfl

theorem coreInv_initialRun (g : Grid) (ft : FrontierType) (dl : Option Int) :
    CoreInv g (initialRun g ft dl) := by
  rw [initialRun_eq]
  constructor
  · simp [mkStartNode, Node.state_mk]
  · intro s
    simp [mkStartNode, Node.state_mk]
  · intro s _
    simp
  · intro n hn
    simp only [List.mem_singleton] at hn
    subst hn
    constructor
    · simp [mkStartNode, ValidChain]
    · simp [mkStartNode, CostOK]
  · simp

theorem expInv_initialRun (g : Grid) (ft : FrontierType) (dl : Option Int) :
    ExpInv (initialRun g ft dl) := by
  rw [initialRun_eq]
  exact ⟨fun s => by simp, by simp⟩

theorem reachN_reachVia_init (g : Grid) :
    ∀ (n : Nat) (s : Pos), ReachN g n s → ReachVia g [g.start] [] s := by
  intro n s h
  induction h with
  | refl => exact .base (List.mem_singleton_self _)
  | tail h1 h2 ih => exact .step ih h2 (by simp)

theorem coverInv_initialRun (g : Grid) (ft : FrontierType) (dl : Option Int) :
    CoverInv g (initialRun g ft dl) := by
  rw [initialRun_eq]
  intro s hs
  obtain ⟨n, hn⟩ := hs
  right
  have hm : (([mkStartNode g] : List Node).map Node.state) = [g.start] := by
    simp [mkStartNode, Node.state_mk]
  show ReachVia g (([mkStartNode g] : List Node).map Node.state) [] s
  rw [hm]
  exact reachN_reachVia_init g n s hn

/-! ## Coverage preservation and exit characterizations -/

theorem coverInv_searchStep (g : Grid) (ft : FrontierType) (st : SearchState)
    (inv : CoreInv g st) (cov : CoverInv g st)
    (hrun2 : (searchStep g ft st).status = .running) :
    CoverInv g (searchStep g ft st) := by
  obtain ⟨cur, rest, hpop, hgoal, hdl, heq⟩ := searchStep_status_running g ft st hrun2
  obtain ⟨hcur, hsub, hnotin, hndrest, hiff⟩ := pop_facts g ft st inv cur rest hpop
  have invF : CoreInv g (searchStep g ft st) := coreInv_searchStep g ft st inv
  set st2 : SearchState :=
    { st with frontier := rest,
              frontier_set := setRemove st.frontier_set cur.state,
              pops := st.pops ++ [cur],
              explored := setAdd st.explored cur.state,
              expanded := st.expanded ++ [cur] } with hst2
  obtain ⟨ins, hfr, hfs, hins, hfresh, hnd⟩ :=
    foldl_expand_frontier ft cur (g.get_neighbors cur) st2
  obtain ⟨hexp, _, _, _, _, _, _, _⟩ := foldl_expand_fields ft cur (g.get_neighbors cur) st2
  have hFexp : (searchStep g ft st).explored = setAdd st.explored cur.state := by
    rw [heq]
    exact hexp
  have hFfr : (searchStep g ft st).frontier.map Node.state
      = rest.map Node.state ++ ins.map Node.state := by
    rw [heq, hfr]
    simp
  have hadj : ∀ t : Pos, ValidStep g cur.state t →
      t ∈ (searchStep g ft st).explored ∨
        t ∈ (searchStep g ft st).frontier.map Node.state := by
    intro t hstep
    have hmem : t ∈ (g.get_neighbors cur).map Node.state :=
      (get_neighbors_state_iff g cur t).mpr hstep
    rw [List.mem_map] at hmem
    obtain ⟨nb, hnb, rfl⟩ := hmem
    rcases foldl_expand_covers ft cur (g.get_neighbors cur) st2 nb hnb with h | h
    · left
      rw [hFexp]
      exact h
    · right
      rw [← heq] at h
      exact (invF.fsIff nb.state).mp h
  have key : ∀ s0 : Pos, ReachVia g (st.frontier.map Node.state) st.explored s0 →
      s0 ∉ st.explored ∧
        (s0 ∈ (searchStep g ft st).explored ∨
          ReachVia g ((searchStep g ft st).frontier.map Node.state)
            (searchStep g ft st).explored s0) := by
    intro s0 hvia
    induction hvia with
    | base hmem =>
      rename_i s1
      have hfs1 : s1 ∈ st.frontier_set := (inv.fsIff s1).mpr hmem
      refine ⟨inv.fsExpl s1 hfs1, ?_⟩
      by_cases hc : s1 = cur.state
      · left
        rw [hFexp, hc]
        exact (mem_setAdd _ _ _).mpr (Or.inl rfl)
      · right
        refine .base ?_
        rw [hFfr]
        exact List.mem_append_left _ ((hiff s1).mp ((mem_setRemove _ _ _).mpr ⟨hfs1, hc⟩))
    | step hv hstep hne ih =>
      rename_i s1 s0'
      refine ⟨hne, ?_⟩
      rcases ih.2 with hexpl | hvia2
      · have : s1 = cur.state := by
          rw [hFexp] at hexpl
          rcases (mem_setAdd _ _ _).mp hexpl with h | h
          · exact h
          · exact absurd h ih.1
        rw [this] at hstep
        rcases hadj s0' hstep with h | h
        · exact Or.inl h
        · exact Or.inr (.base h)
      · by_cases hc : s0' = cur.state
        · left
          rw [hFexp, hc]
          exact (mem_setAdd _ _ _).mpr (Or.inl rfl)
        · right
          refine .step hvia2 hstep ?_
          rw [hFexp]
          intro hmem
          rcases (mem_setAdd _ _ _).mp hmem with h | h
          · exact hc h
          · exact hne h
  intro s hs
  rcases cov s hs with h | h
  · left
    rw [hFexp]
    exact (mem_setAdd _ _ _).mpr (Or.inr h)
  · exact (key s h).2

theorem reachVia_front_ne (g : Grid) (front expl : List Pos) (s : Pos)
    (h : ReachVia g front expl s) : front ≠ [] := by
  induction h with
  | base hmem =>
    intro he
    subst he
    simp at hmem
  | step _ _ _ ih => exact ih

theorem frontier_ne_of_reach (g : Grid) (ft : FrontierType) (st : SearchState)
    (inv : CoreInv g st) (cov : CoverInv g st) (hreach : Reach g g.goal) :
    st.frontier ≠ [] := by
  rcases cov g.goal hreach with h | h
  · exact absurd h inv.goalNE
  · intro he
    apply reachVia_front_ne g _ _ _ h
    rw [he]
    rfl

theorem searchStep_expand_status (g : Grid) (ft : FrontierType) (st : SearchState)
    (cur : Node) (rest : List Node) (hpop : popF ft st.frontier = some (cur, rest))
    (hgoal : g.is_goal_state cur = false)
    (hdl : depthLimitReached st.depth_limit cur.depth = false) :
    (searchStep g ft st).status = st.status := by
  rw [searchStep_pop_expand g ft st cur rest hpop hgoal hdl]
  exact (foldl_expand_fields ft cur _ _).2.2.2.2.2.1

theorem loop_no_exhaust (g : Grid) (ft : FrontierType) :
    ∀ (fuel : Nat) (st : SearchState), CoreInv g st → CoverInv g st →
      Reach g g.goal → st.status = .running →
      (searchLoop g ft fuel st).status ≠ .exhausted := by
  intro fuel
  induction fuel with
  | zero =>
    intro st _ _ _ hrun
    show st.status ≠ .exhausted
    rw [hrun]
    simp
  | succ f ih =>
    intro st inv cov hreach hrun
    rw [searchLoop, if_pos hrun]
    have hne := frontier_ne_of_reach g ft st inv cov hreach
    cases hpop : popF ft st.frontier with
    | none => exact absurd ((popF_eq_none ft _).mp hpop) hne
    | some p =>
      obtain ⟨cur, rest⟩ := p
      cases hgoal : g.is_goal_state cur with
      | true =>
        rw [searchStep_pop_goal g ft st cur rest hpop hgoal,
          searchLoop_stable _ _ _ _ (by simp)]
        simp
      | false =>
        cases hdl : depthLimitReached st.depth_limit cur.depth with
        | true =>
          rw [searchStep_pop_depth g ft st cur rest hpop hgoal hdl,
            searchLoop_stable _ _ _ _ (by simp)]
          simp
        | false =>
          have hs : (searchStep g ft st).status = .running := by
            rw [searchStep_expand_status g ft st cur rest hpop hgoal hdl]
            exact hrun
          exact ih (searchStep g ft st) (coreInv_searchStep g ft st inv)
            (coverInv_searchStep g ft st inv cov hs) hreach hs

theorem loop_goal_exit (g : Grid) (ft : FrontierType) :
    ∀ (fuel : Nat) (st : SearchState), CoreInv g st → st.status = .running →
      (searchLoop g ft fuel st).status = .goalFound →
      ∃ c : Node, ValidChain g c ∧ CostOK g c ∧ c.state = g.goal ∧
        (searchLoop g ft fuel st).path = reconstruct_path c ∧
        (searchLoop g ft fuel st).final_cost = c.cost := by
  intro fuel
  induction fuel with
  | zero =>
    intro st _ hrun hg
    exact absurd (hrun ▸ hg) (by simp)
  | succ f ih =>
    intro st inv hrun hg
    rw [searchLoop, if_pos hrun] at hg ⊢
    cases hpop : popF ft st.frontier with
    | none =>
      rw [searchStep_empty g ft st hpop, searchLoop_stable _ _ _ _ (by simp)] at hg
      simp at hg
    | some p =>
      obtain ⟨cur, rest⟩ := p
      cases hgoal : g.is_goal_state cur with
      | true =>
        rw [searchStep_pop_goal g ft st cur rest hpop hgoal,
          searchLoop_stable _ _ _ _ (by simp)] at hg ⊢
        obtain ⟨hchain, hcost⟩ := inv.chains cur (pop_facts g ft st inv cur rest hpop).1
        exact ⟨cur, hchain, hcost, (is_goal_state_true_iff g cur).mp hgoal, rfl, rfl⟩
      | false =>
        cases hdl : depthLimitReached st.depth_limit cur.depth with
        | true =>
          rw [searchStep_pop_depth g ft st cur rest hpop hgoal hdl,
            searchLoop_stable _ _ _ _ (by simp)] at hg
          simp at hg
        | false =>
          have hs : (searchStep g ft st).status = .running := by
            rw [searchStep_expand_status g ft st cur rest hpop hgoal hdl]
            exact hrun
          exact ih (searchStep g ft st) (coreInv_searchStep g ft st inv) hs hg

theorem loop_path_unless_goal (g : Grid) (ft : FrontierType) :
    ∀ (fuel : Nat) (st : SearchState),
      (searchLoop g ft fuel st).status ≠ .goalFound →
      (searchLoop g ft fuel st).path = st.path := by
  intro fuel
  induction fuel with
  | zero =>
    intro st _
    rfl
  | succ f ih =>
    intro st hng
    by_cases hrun : st.status = .running
    · rw [searchLoop, if_pos hrun] at hng ⊢
      cases hpop : popF ft st.frontier with
      | none =>
        rw [searchStep_empty g ft st hpop, searchLoop_stable _ _ _ _ (by simp)]
      | some p =>
        obtain ⟨cur, rest⟩ := p
        cases hgoal : g.is_goal_state cur with
        | true =>
          rw [searchStep_pop_goal g ft st cur rest hpop hgoal,
            searchLoop_stable _ _ _ _ (by simp)] at hng
          simp at hng
        | false =>
          cases hdl : depthLimitReached st.depth_limit cur.depth with
          | true =>
            rw [searchStep_pop_depth g ft st cur rest hpop hgoal hdl,
              searchLoop_stable _ _ _ _ (by simp)]
          | false =>
            rw [ih (searchStep g ft st) hng]
            rw [searchStep_pop_expand g ft st cur rest hpop hgoal hdl]
            exact (foldl_expand_fields ft cur _ _).2.1
    · rw [searchLoop_stable _ _ _ _ hrun]

theorem loop_dlh_flag (g : Grid) (ft : FrontierType) :
    ∀ (fuel : Nat) (st : SearchState), st.status = .running →
      (searchLoop g ft fuel st).status = .depthLimitHit →
      (searchLoop g ft fuel st).depth_limit_hit = true := by
  intro fuel
  induction fuel with
  | zero =>
    intro st hrun hd
    exact absurd (hrun ▸ hd) (by simp)
  | succ f ih =>
    intro st hrun hd
    rw [searchLoop, if_pos hrun] at hd ⊢
    cases hpop : popF ft st.frontier with
    | none =>
      rw [searchStep_empty g ft st hpop, searchLoop_stable _ _ _ _ (by simp)] at hd
      simp at hd
    | some p =>
      obtain ⟨cur, rest⟩ := p
      cases hgoal : g.is_goal_state cur with
      | true =>
        rw [searchStep_pop_goal g ft st cur rest hpop hgoal,
          searchLoop_stable _ _ _ _ (by simp)] at hd
        simp at hd
      | false =>
        cases hdl : depthLimitReached st.depth_limit cur.depth with
        | true =>
          rw [searchStep_pop_depth g ft st cur rest hpop hgoal hdl,
            searchLoop_stable _ _ _ _ (by simp)] at hd ⊢
        | false =>
          have hs : (searchStep g ft st).status = .running := by
            rw [searchStep_expand_status g ft st cur rest hpop hgoal hdl]
            exact hrun
          exact ih (searchStep g ft st) hs hd

theorem loop_no_dlh_of_none (g : Grid) (ft : FrontierType) :
    ∀ (fuel : Nat) (st : SearchState), st.depth_limit = none →
      st.status = .running →
      (searchLoop g ft fuel st).status ≠ .depthLimitHit := by
  intro fuel
  induction fuel with
  | zero =>
    intro st _ hrun
    show st.status ≠ .depthLimitHit
    rw [hrun]
    simp
  | succ f ih =>
    intro st hdlnone hrun
    rw [searchLoop, if_pos hrun]
    cases hpop : popF ft st.frontier with
    | none =>
      rw [searchStep_empty g ft st hpop, searchLoop_stable _ _ _ _ (by simp)]
      simp
    | some p =>
      obtain ⟨cur, rest⟩ := p
      cases hgoal : g.is_goal_state cur with
      | true =>
        rw [searchStep_pop_goal g ft st cur rest hpop hgoal,
          searchLoop_stable _ _ _ _ (by simp)]
        simp
      | false =>
        cases hdl : depthLimitReached st.depth_limit cur.depth with
        | true =>
          rw [hdlnone] at hdl
          simp [depthLimitReached] at hdl
        | false =>
          have hs : (searchStep g ft st).status = .running := by
            rw [searchStep_expand_status g ft st cur rest hpop hgoal hdl]
            exact hrun
          refine ih (searchStep g ft st) ?_ hs
          rw [searchStep_depth_limit, hdlnone]

theorem loop_no_goal_of_unreachable (g : Grid) (ft : FrontierType) :
    ∀ (fuel : Nat) (st : SearchState), CoreInv g st → st.status = .running →
      ¬ Reach g g.goal →
      (searchLoop g ft fuel st).status ≠ .goalFound := by
  intro fuel
  induction fuel with
  | zero =>
    intro st _ hrun _
    show st.status ≠ .goalFound
    rw [hrun]
    simp
  | succ f ih =>
    intro st inv hrun hunreach
    rw [searchLoop, if_pos hrun]
    cases hpop : popF ft st.frontier with
    | none =>
      rw [searchStep_empty g ft st hpop, searchLoop_stable _ _ _ _ (by simp)]
      simp
    | some p =>
      obtain ⟨cur, rest⟩ := p
      cases hgoal : g.is_goal_state cur with
      | true =>
        exfalso
        apply hunreach
        obtain ⟨hchain, _⟩ := inv.chains cur (pop_facts g ft st inv cur rest hpop).1
        have := validChain_reachN g cur hchain
        rw [(is_goal_state_true_iff g cur).mp hgoal] at this
        exact ⟨cur.chainLen, this⟩
      | false =>
        cases hdl : depthLimitReached st.depth_limit cur.depth with
        | true =>
          rw [searchStep_pop_depth g ft st cur rest hpop hgoal hdl,
            searchLoop_stable _ _ _ _ (by simp)]
          simp
        | false =>
          have hs : (searchStep g ft st).status = .running := by
            rw [searchStep_expand_status g ft st cur rest hpop hgoal hdl]
            exact hrun
          exact ih (searchStep g ft st) (coreInv_searchStep g ft st inv) hs hunreach

/-! ## Depth-limited runs -/

theorem depthLimitReached_some (L : Int) (d : Nat) :
    depthLimitReached (some L) d = decide (L ≤ (d : Int)) := rfl

theorem depthInv_initialRun (g : Grid) (ft : FrontierType) (L : Int) (hL : 0 ≤ L) :
    DepthInv L (initialRun g ft (some L)) := by
  rw [initialRun_eq]
  intro n hn
  simp only [List.mem_singleton] at hn
  subst hn
  refine ⟨rfl, ?_⟩
  show ((0 : Nat) : Int) ≤ L
  simpa using hL

theorem depthInv_searchStep (g : Grid) (ft : FrontierType) (st : SearchState) (L : Int)
    (hdlim : st.depth_limit = some L) (inv : CoreInv g st) (dinv : DepthInv L st)
    (hrun2 : (searchStep g ft st).status = .running) :
    DepthInv L (searchStep g ft st) := by
  obtain ⟨cur, rest, hpop, hgoal, hdl, heq⟩ := searchStep_status_running g ft st hrun2
  obtain ⟨hcur, hsub, _, _, _⟩ := pop_facts g ft st inv cur rest hpop
  set st2 : SearchState :=
    { st with frontier := rest,
              frontier_set := setRemove st.frontier_set cur.state,
              pops := st.pops ++ [cur],
              explored := setAdd st.explored cur.state,
              expanded := st.expanded ++ [cur] } with hst2
  obtain ⟨ins, hfr, _, hins, _, _⟩ :=
    foldl_expand_frontier ft cur (g.get_neighbors cur) st2
  have hcurlt : (cur.depth : Int) < L := by
    rw [hdlim, depthLimitReached_some] at hdl
    have := of_decide_eq_false hdl
    omega
  intro n hn
  rw [heq, hfr, List.mem_append] at hn
  rcases hn with h | h
  · exact dinv n (hsub n h)
  · obtain ⟨nb, hnb, rfl⟩ := hins n h
    have hst2dl : st2.depth_limit = some L := hdlim
    rw [hst2dl]
    have hparent : nb.parent = some cur := by
      rw [(mem_get_neighbors g cur nb hnb).2]
      exact Node.parent_mk _ _ _ _
    have hcl : (adjDepth (some L) cur nb).chainLen = cur.chainLen + 1 :=
      adjDepth_chainLen (some L) cur nb hparent
    have hd : (adjDepth (some L) cur nb).depth = cur.depth + 1 := rfl
    have hcld : cur.chainLen = cur.depth := by
      have := (dinv cur hcur).1
      omega
    constructor
    · rw [hcl, hd]
      omega
    · rw [hd]
      omega

theorem loop_no_goal_of_far (g : Grid) (ft : FrontierType) (L : Int) :
    ∀ (fuel : Nat) (st : SearchState), CoreInv g st → DepthInv L st →
      st.depth_limit = some L →
      (∀ k : Nat, ReachN g k g.goal → L < (k : Int)) →
      st.status = .running →
      (searchLoop g ft fuel st).status ≠ .goalFound := by
  intro fuel
  induction fuel with
  | zero =>
    intro st _ _ _ _ hrun
    show st.status ≠ .goalFound
    rw [hrun]
    simp
  | succ f ih =>
    intro st inv dinv hdlim hfar hrun
    rw [searchLoop, if_pos hrun]
    cases hpop : popF ft st.frontier with
    | none =>
      rw [searchStep_empty g ft st hpop, searchLoop_stable _ _ _ _ (by simp)]
      simp
    | some p =>
      obtain ⟨cur, rest⟩ := p
      cases hgoal : g.is_goal_state cur with
      | true =>
        exfalso
        have hcur := (pop_facts g ft st inv cur rest hpop).1
        obtain ⟨hchain, _⟩ := inv.chains cur hcur
        have hrn := validChain_reachN g cur hchain
        rw [(is_goal_state_true_iff g cur).mp hgoal] at hrn
        have h1 := hfar cur.chainLen hrn
        obtain ⟨h2, h3⟩ := dinv cur hcur
        omega
      | false =>
        cases hdl : depthLimitReached st.depth_limit cur.depth with
        | true =>
          rw [searchStep_pop_depth g ft st cur rest hpop hgoal hdl,
            searchLoop_stable _ _ _ _ (by simp)]
          simp
        | false =>
          have hs : (searchStep g ft st).status = .running := by
            rw [searchStep_expand_status g ft st cur rest hpop hgoal hdl]
            exact hrun
          refine ih (searchStep g ft st) (coreInv_searchStep g ft st inv)
            (depthInv_searchStep g ft st L hdlim inv dinv hs) ?_ hfar hs
          rw [searchStep_depth_limit, hdlim]

theorem loop_expanded_depth (g : Grid) (ft : FrontierType) (L : Int) :
    ∀ (fuel : Nat) (st : SearchState), st.depth_limit = some L →
      (∀ n ∈ st.expanded, (n.depth : Int) ≤ L) →
      ∀ n ∈ (searchLoop g ft fuel st).expanded, (n.depth : Int) ≤ L := by
  intro fuel
  induction fuel with
  | zero =>
    intro st _ hexp
    exact hexp
  | succ f ih =>
    intro st hdlim hexp
    rw [searchLoop]
    by_cases hrun : st.status = .running
    · rw [if_pos hrun]
      cases hpop : popF ft st.frontier with
      | none =>
        rw [searchStep_empty g ft st hpop, searchLoop_stable _ _ _ _ (by simp)]
        exact hexp
      | some p =>
        obtain ⟨cur, rest⟩ := p
        cases hgoal : g.is_goal_state cur with
        | true =>
          rw [searchStep_pop_goal g ft st cur rest hpop hgoal,
            searchLoop_stable _ _ _ _ (by simp)]
          exact hexp
        | false =>
          cases hdl : depthLimitReached st.depth_limit cur.depth with
          | true =>
            rw [searchStep_pop_depth g ft st cur rest hpop hgoal hdl,
              searchLoop_stable _ _ _ _ (by simp)]
            exact hexp
          | false =>
            refine ih (searchStep g ft st) ?_ ?_
            · rw [searchStep_depth_limit, hdlim]
            · rw [searchStep_pop_expand g ft st cur rest hpop hgoal hdl,
                (foldl_expand_fields ft cur _ _).2.2.2.2.2.2.2]
              intro n hn
              rw [List.mem_append] at hn
              rcases hn with h | h
              · exact hexp n h
              · simp only [List.mem_singleton] at h
                subst h
                rw [hdlim, depthLimitReached_some] at hdl
                have := of_decide_eq_false hdl
                omega
    · rw [if_neg hrun]
      exact hexp

/-! ## A lower bound on path lengths (Manhattan distance) -/

theorem reachN_manhattan (g : Grid) :
    ∀ (k : Nat) (s : Pos), ReachN g k s →
      (s.1 - g.start.1).natAbs + (s.2 - g.start.2).natAbs ≤ k := by
  intro k s h
  induction h with
  | refl => simp
  | tail h1 h2 ih =>
    rename_i n u t
    obtain ⟨⟨d, hd, ht⟩, _, _⟩ := h2
    subst ht
    simp [directions] at hd
    rcases hd with rfl | rfl | rfl | rfl <;>
      · dsimp only
        omega

/-! ## Breadth-first level invariant -/

theorem reachN_zero (g : Grid) (s : Pos) (h : ReachN g 0 s) : s = g.start := by
  cases h
  rfl

theorem reachN_succ_inv (g : Grid) (d : Nat) (s : Pos) (h : ReachN g (d + 1) s) :
    ∃ u, ReachN g d u ∧ ValidStep g u s := by
  cases h with
  | tail h1 h2 => exact ⟨_, h1, h2⟩

theorem popF_fifo_eq (l : List Node) (c : Node) (rest : List Node)
    (h : popF .fifo l = some (c, rest)) : l = c :: rest := by
  cases l with
  | nil => simp [popF] at h
  | cons a l2 =>
    simp only [popF, Option.some.injEq, Prod.mk.injEq] at h
    rw [h.1, h.2]

theorem mkStartNode_chainLen (g : Grid) : (mkStartNode g).chainLen = 0 := rfl

theorem bfsLevels_initialRun (g : Grid) (dl : Option Int) :
    BfsLevels g (initialRun g .fifo dl) 0 := by
  rw [initialRun_eq]
  constructor
  · refine ⟨[mkStartNode g], [], by simp, ?_, by simp⟩
    intro n hn
    simp only [List.mem_singleton] at hn
    subst hn
    rfl
  · intro n hn k _
    simp only [List.mem_singleton] at hn
    subst hn
    simp [mkStartNode_chainLen]
  · intro s k hreach hk
    interval_cases k
    right
    rw [reachN_zero g s hreach]
    simp
  · intro s hs
    simp at hs

theorem bfsLevels_reindex (g : Grid) (st : SearchState) (d : Nat)
    (inv : CoreInv g st) (lv : BfsLevels g st d)
    (hall : ∀ n ∈ st.frontier, n.chainLen = d + 1) :
    BfsLevels g st (d + 1) := by
  constructor
  · exact ⟨st.frontier, [], by simp, hall, by simp⟩
  · exact lv.tight
  · intro s k hreach hk
    rcases Nat.lt_or_ge k (d + 1) with hlt | hge
    · exact lv.covered s k hreach (by omega)
    · have hk1 : k = d + 1 := by omega
      subst hk1
      obtain ⟨u, hu, hstep⟩ := reachN_succ_inv g d s hreach
      have huexp : u ∈ st.explored := by
        rcases lv.covered u d hu (by omega) with h | h
        · exact h
        · exfalso
          rw [inv.fsIff u, List.mem_map] at h
          obtain ⟨n, hn, rfl⟩ := h
          have h1 := lv.tight n hn d hu
          have h2 := hall n hn
          omega
      exact lv.expAdj u huexp s hstep
  · exact lv.expAdj

theorem bfsLevels_head (g : Grid) (st : SearchState) (inv : CoreInv g st)
    (binv : BfsInv g st) (cur : Node) (rest : List Node)
    (hfr : st.frontier = cur :: rest) :
    ∃ d A B, BfsLevels g st d ∧ rest = A ++ B ∧ cur.chainLen = d ∧
      (∀ n ∈ A, n.chainLen = d) ∧ (∀ n ∈ B, n.chainLen = d + 1) := by
  obtain ⟨d0, lv0⟩ := binv
  obtain ⟨A, B, hAB, hA, hB⟩ := lv0.split
  cases A with
  | nil =>
    have hall : ∀ n ∈ st.frontier, n.chainLen = d0 + 1 := by
      intro n hn
      apply hB
      rw [hAB] at hn
      simpa using hn
    have lv1 := bfsLevels_reindex g st d0 inv lv0 hall
    cases B with
    | nil =>
      rw [hAB] at hfr
      simp at hfr
    | cons b B2 =>
      rw [hAB] at hfr
      simp only [List.nil_append] at hfr
      injection hfr with h1 h2
      refine ⟨d0 + 1, rest, [], lv1, by simp, ?_, ?_, by simp⟩
      · rw [← h1]
        exact hB b (List.mem_cons_self _ _)
      · intro n hn
        apply hB
        rw [h2]
        exact List.mem_cons_of_mem _ hn
  | cons a A2 =>
    rw [hAB] at hfr
    simp only [List.cons_append] at hfr
    injection hfr with h1 h2
    refine ⟨d0, A2, B, lv0, h2.symm, ?_, fun n hn => hA n (List.mem_cons_of_mem _ hn), hB⟩
    rw [← h1]
    exact hA a (List.mem_cons_self _ _)

theorem bfsInv_searchStep (g : Grid) (st : SearchState)
    (inv : CoreInv g st) (binv : BfsInv g st)
    (hrun2 : (searchStep g .fifo st).status = .running) :
    BfsInv g (searchStep g .fifo st) := by
  obtain ⟨cur, rest, hpop, hgoal, hdl, heq⟩ := searchStep_status_running g .fifo st hrun2
  have hfrst : st.frontier = cur :: rest := popF_fifo_eq _ _ _ hpop
  obtain ⟨d, A, B, lv, hrestAB, hcurd, hA, hB⟩ :=
    bfsLevels_head g st inv binv cur rest hfrst
  obtain ⟨hcur, hsub, hnotin, hndrest, hiff⟩ := pop_facts g .fifo st inv cur rest hpop
  set st2 : SearchState :=
    { st with frontier := rest,
              frontier_set := setRemove st.frontier_set cur.state,
              pops := st.pops ++ [cur],
              explored := setAdd st.explored cur.state,
              expanded := st.expanded ++ [cur] } with hst2
  obtain ⟨ins, hfr2, hfs2, hins, hfresh, hnd⟩ :=
    foldl_expand_frontier .fifo cur (g.get_neighbors cur) st2
  obtain ⟨hexp, _, _, _, _, _, _, _⟩ :=
    foldl_expand_fields .fifo cur (g.get_neighbors cur) st2
  have invF : CoreInv g (searchStep g .fifo st) := coreInv_searchStep g .fifo st inv
  have hFexp : (searchStep g .fifo st).explored = setAdd st.explored cur.state := by
    rw [heq]
    exact hexp
  have hFfr : (searchStep g .fifo st).frontier = rest ++ ins := by
    rw [heq, hfr2]
  have hFfs : (searchStep g .fifo st).frontier_set
      = (ins.map Node.state).reverse ++ setRemove st.frontier_set cur.state := by
    rw [heq, hfs2]
  have hinsLen : ∀ nn ∈ ins, nn.chainLen = d + 1 := by
    intro nn hnn
    obtain ⟨nb, hnb, rfl⟩ := hins nn hnn
    have hparent : nb.parent = some cur := by
      rw [(mem_get_neighbors g cur nb hnb).2]
      exact Node.parent_mk _ _ _ _
    rw [adjDepth_chainLen _ cur nb hparent, hcurd]
  have hinsFreshSt : ∀ t ∈ ins.map Node.state,
      t ∉ st.explored ∧ t ∉ st.frontier_set ∧ t ≠ cur.state := by
    intro t ht
    obtain ⟨h1, h2⟩ := hfresh t ht
    have hne2 : t ≠ cur.state := fun hc => h2 ((mem_setAdd _ _ _).mpr (Or.inl hc))
    refine ⟨fun hc => h2 ((mem_setAdd _ _ _).mpr (Or.inr hc)),
      fun hc => h1 ((mem_setRemove _ _ _).mpr ⟨hc, hne2⟩), hne2⟩
  have hadj : ∀ t : Pos, ValidStep g cur.state t →
      t ∈ (searchStep g .fifo st).explored ∨
        t ∈ (searchStep g .fifo st).frontier_set := by
    intro t hstep
    have hmem : t ∈ (g.get_neighbors cur).map Node.state :=
      (get_neighbors_state_iff g cur t).mpr hstep
    rw [List.mem_map] at hmem
    obtain ⟨nb, hnb, rfl⟩ := hmem
    rcases foldl_expand_covers .fifo cur (g.get_neighbors cur) st2 nb hnb with h | h
    · left
      rw [hFexp]
      exact h
    · right
      rw [heq]
      exact h
  refine ⟨d, ?_, ?_, ?_, ?_⟩
  · -- split
    refine ⟨A, B ++ ins, ?_, hA, ?_⟩
    · rw [hFfr, hrestAB, List.append_assoc]
    · intro n hn
      rcases List.mem_append.mp hn with h | h
      · exact hB n h
      · exact hinsLen n h
  · -- tight
    intro n hn k hreach
    rw [hFfr] at hn
    rcases List.mem_append.mp hn with h | h
    · exact lv.tight n (by rw [hfrst]; exact List.mem_cons_of_mem _ h) k hreach
    · rw [hinsLen n h]
      by_contra hlt
      push_neg at hlt
      have hkd : k ≤ d := by omega
      have hcov := lv.covered n.state k hreach hkd
      have hfr3 := hinsFreshSt n.state (List.mem_map_of_mem Node.state h)
      rcases hcov with hc | hc
      · exact hfr3.1 hc
      · exact hfr3.2.1 hc
  · -- covered
    intro s k hreach hk
    rcases lv.covered s k hreach hk with h | h
    · left
      rw [hFexp]
      exact (mem_setAdd _ _ _).mpr (Or.inr h)
    · by_cases hc : s = cur.state
      · left
        rw [hFexp, hc]
        exact (mem_setAdd _ _ _).mpr (Or.inl rfl)
      · right
        rw [hFfs]
        exact List.mem_append_right _ ((mem_setRemove _ _ _).mpr ⟨h, hc⟩)
  · -- expAdj
    intro s hs t hstep
    rw [hFexp] at hs
    rcases (mem_setAdd _ _ _).mp hs with hc | hc
    · subst hc
      exact hadj t hstep
    · rcases lv.expAdj s hc t hstep with h | h
      · left
        rw [hFexp]
        exact (mem_setAdd _ _ _).mpr (Or.inr h)
      · by_cases hc2 : t = cur.state
        · left
          rw [hFexp, hc2]
          exact (mem_setAdd _ _ _).mpr (Or.inl rfl)
        · right
          rw [hFfs]
          exact List.mem_append_right _ ((mem_setRemove _ _ _).mpr ⟨h, hc2⟩)

theorem bfs_loop_goal_exit (g : Grid) :
    ∀ (fuel : Nat) (st : SearchState), CoreInv g st → BfsInv g st →
      st.status = .running →
      (searchLoop g .fifo fuel st).status = .goalFound →
      ∃ c : Node, ValidChain g c ∧ CostOK g c ∧ c.state = g.goal ∧
        (searchLoop g .fifo fuel st).path = reconstruct_path c ∧
        (searchLoop g .fifo fuel st).final_cost = c.cost ∧
        (∀ k : Nat, ReachN g k g.goal → c.chainLen ≤ k) := by
  intro fuel
  induction fuel with
  | zero =>
    intro st _ _ hrun hg
    exact absurd (hrun ▸ hg) (by simp)
  | succ f ih =>
    intro st inv binv hrun hg
    rw [searchLoop, if_pos hrun] at hg ⊢
    cases hpop : popF FrontierType.fifo st.frontier with
    | none =>
      rw [searchStep_empty g .fifo st hpop, searchLoop_stable _ _ _ _ (by simp)] at hg
      simp at hg
    | some p =>
      obtain ⟨cur, rest⟩ := p
      cases hgoal : g.is_goal_state cur with
      | true =>
        rw [searchStep_pop_goal g .fifo st cur rest hpop hgoal,
          searchLoop_stable _ _ _ _ (by simp)] at hg ⊢
        obtain ⟨hchain, hcost⟩ := inv.chains cur (pop_facts g .fifo st inv cur rest hpop).1
        have hst : cur.state = g.goal := (is_goal_state_true_iff g cur).mp hgoal
        refine ⟨cur, hchain, hcost, hst, rfl, rfl, ?_⟩
        intro k hreach
        obtain ⟨d2, lv2⟩ := binv
        refine lv2.tight cur (pop_facts g .fifo st inv cur rest hpop).1 k ?_
        rw [hst]
        exact hreach
      | false =>
        cases hdl : depthLimitReached st.depth_limit cur.depth with
        | true =>
          rw [searchStep_pop_depth g .fifo st cur rest hpop hgoal hdl,
            searchLoop_stable _ _ _ _ (by simp)] at hg
          simp at hg
        | false =>
          have hs : (searchStep g .fifo st).status = .running := by
            rw [searchStep_expand_status g .fifo st cur rest hpop hgoal hdl]
            exact hrun
          exact ih (searchStep g .fifo st) (coreInv_searchStep g .fifo st inv)
            (bfsInv_searchStep g st inv binv hs) hs hg

/-! ## Loop-level invariants and the iterative-deepening driver -/

theorem runSearch_eq (g : Grid) (ft : FrontierType) (dl : Option Int) (fuel : Nat) :
    runSearch g ft dl fuel = searchLoop g ft fuel (initialRun g ft dl) := rfl

theorem coreInv_searchLoop (g : Grid) (ft : FrontierType) :
    ∀ (fuel : Nat) (st : SearchState), CoreInv g st →
      CoreInv g (searchLoop g ft fuel st) := by
  intro fuel
  induction fuel with
  | zero => intro st inv; exact inv
  | succ f ih =>
    intro st inv
    rw [searchLoop]
    by_cases hrun : st.status = .running
    · rw [if_pos hrun]
      exact ih _ (coreInv_searchStep g ft st inv)
    · rw [if_neg hrun]
      exact inv

theorem expInv_searchLoop (g : Grid) (ft : FrontierType) :
    ∀ (fuel : Nat) (st : SearchState), CoreInv g st → ExpInv st →
      ExpInv (searchLoop g ft fuel st) := by
  intro fuel
  induction fuel with
  | zero => intro st _ einv; exact einv
  | succ f ih =>
    intro st inv einv
    rw [searchLoop]
    by_cases hrun : st.status = .running
    · rw [if_pos hrun]
      exact ih _ (coreInv_searchStep g ft st inv) (expInv_searchStep g ft st inv einv)
    · rw [if_neg hrun]
      exact einv

theorem attemptRun_eq (g : Grid) (st : SearchState) (d : Int) :
    update_frontier .lifo (resetForAttempt st d) (mkStartNode g) =
      { frontier := [mkStartNode g], frontier_set := [g.start], explored := [],
        path := [], final_cost := 0, depth_limit := some d, depth_limit_hit := false,
        status := .running, pops := st.pops, expanded := st.expanded } := by
  unfold resetForAttempt
  rw [update_frontier_of_not_mem _ _ _ (by simp)]
  rfl

theorem coreInv_attemptRun (g : Grid) (st : SearchState) (d : Int) :
    CoreInv g (update_frontier .lifo (resetForAttempt st d) (mkStartNode g)) := by
  rw [attemptRun_eq]
  constructor
  · simp [mkStartNode, Node.state_mk]
  · intro s
    simp [mkStartNode, Node.state_mk]
  · intro s _
    simp
  · intro n hn
    simp only [List.mem_singleton] at hn
    subst hn
    constructor
    · simp [mkStartNode, ValidChain]
    · simp [mkStartNode, CostOK]
  · simp

theorem attemptRun_measure (g : Grid) (st : SearchState) (d : Int) :
    searchMeasure g (update_frontier .lifo (resetForAttempt st d) (mkStartNode g))
      = searchMeasure g (initialRun g .lifo none) := by
  rw [attemptRun_eq, initialRun_eq]
  rfl

theorem attempt_result (g : Grid) (fuel : Nat) (st : SearchState) (d : Int)
    (hunreach : ¬ Reach g g.goal)
    (hfuel : searchMeasure g (initialRun g .lifo none) < fuel) :
    (searchLoop g .lifo fuel
        (update_frontier .lifo (resetForAttempt st d) (mkStartNode g))).path = [] ∧
    (searchLoop g .lifo fuel
        (update_frontier .lifo (resetForAttempt st d) (mkStartNode g))).status
      ≠ .running := by
  have hrun : (update_frontier .lifo (resetForAttempt st d) (mkStartNode g)).status
      = .running := by
    rw [attemptRun_eq]
  have hng := loop_no_goal_of_unreachable g .lifo fuel _
    (coreInv_attemptRun g st d) hrun hunreach
  have hpath := loop_path_unless_goal g .lifo fuel _ hng
  constructor
  · rw [hpath, attemptRun_eq]
  · apply searchLoop_terminates
    rw [attemptRun_measure]
    exact hfuel

theorem idsLoop_all_fail (g : Grid) (fuel : Nat) (hunreach : ¬ Reach g g.goal)
    (hfuel : searchMeasure g (initialRun g .lifo none) < fuel) :
    ∀ (a : Nat) (depth : Int) (st : SearchState) (acc : List Int), 1 ≤ a →
      (idsLoop g fuel a depth st acc).2
          = acc ++ (List.range a).map (fun i : Nat => depth + (i : Int)) ∧
      (idsLoop g fuel a depth st acc).1.path = [] ∧
      (idsLoop g fuel a depth st acc).1.status ≠ .running := by
  intro a
  induction a with
  | zero =>
    intro depth st acc h
    omega
  | succ a2 ih =>
    intro depth st acc _
    obtain ⟨hpath, hterm⟩ := attempt_result g fuel st depth hunreach hfuel
    rw [idsLoop, if_pos hpath]
    cases a2 with
    | zero =>
      rw [idsLoop]
      refine ⟨?_, hpath, hterm⟩
      rw [show List.range 1 = [0] from rfl]
      simp
    | succ a3 =>
      obtain ⟨h1, h2, h3⟩ := ih (depth + 1)
        (searchLoop g .lifo fuel
          (update_frontier .lifo (resetForAttempt st depth) (mkStartNode g)))
        (acc ++ [depth]) (by omega)
      refine ⟨?_, h2, h3⟩
      rw [h1, List.append_assoc]
      congr 1
      conv_rhs => rw [List.range_succ_eq_map]
      simp only [List.map_cons, List.map_map, List.singleton_append]
      congr 1
      · simp
      · apply List.map_congr_left
        intro i _
        simp only [Function.comp]
        push_cast
        ring

/-! ## Claim C1 -/

/-- C1, counterexample to the claim as stated: on the 3x1 corridor the
goal (2,0) is reachable from (0,0), yet running the search with the
depth-limited strategy and an externally supplied depth limit of 1
terminates with an *empty* path (depth-limit hit), so not every strategy
run returns a non-empty path on a barrier-free-connected grid. -/
theorem C1_counterexample :
    (∃ k : Nat, ReachN exGrid3 k exGrid3.goal) ∧
    (runSearch exGrid3 (frontier_type_map .DepthLimitedSearch)
        (clampDepthLimit (some 1)) 10).path = [] ∧
    (runSearch exGrid3 (frontier_type_map .DepthLimitedSearch)
        (clampDepthLimit (some 1)) 10).status = .depthLimitHit := by
  refine ⟨⟨2, ?_⟩, by decide, by decide⟩
  have h1 : ReachN exGrid3 1 (1, 0) := .tail .refl (by decide)
  exact .tail h1 (by decide)

/-- C1 (amended): for every grid in which some barrier-free path
connects start to goal, a `search` run whose effective depth limit is
`None` (the default for depth-first, breadth-first and uniform-cost
search, and for depth-limited search with no limit supplied; a
configured depth limit or the iterative-deepening cap may instead cut
the run off with an empty path) terminates with the goal found and a
non-empty path — the frontier never empties before the goal is popped —
and the reported `final_cost` equals the sum, over each step of the
reconstructed path, of the destination cell's step cost.  The fuel
bound `searchMeasure` counts loop iterations; any value above it lets
the loop reach its terminal state. -/
theorem C1_search_completeness (g : Grid) (ft : FrontierType) (fuel : Nat)
    (hreach : Reach g g.goal)
    (hfuel : searchMeasure g (initialRun g ft none) < fuel) :
    (runSearch g ft none fuel).status = .goalFound ∧
    (runSearch g ft none fuel).path ≠ [] ∧
    (runSearch g ft none fuel).final_cost
      = pathStepCost g (runSearch g ft none fuel).path := by
  have hrun : (initialRun g ft none).status = .running := by rw [initialRun_eq]
  have hdlnone : (initialRun g ft none).depth_limit = none := by rw [initialRun_eq]
  have hterm := searchLoop_terminates g ft fuel (initialRun g ft none) hfuel
  have hnex := loop_no_exhaust g ft fuel (initialRun g ft none)
    (coreInv_initialRun g ft none) (coverInv_initialRun g ft none) hreach hrun
  have hndlh := loop_no_dlh_of_none g ft fuel (initialRun g ft none) hdlnone hrun
  have hstatus : (searchLoop g ft fuel (initialRun g ft none)).status = .goalFound := by
    cases h : (searchLoop g ft fuel (initialRun g ft none)).status with
    | running => exact absurd h hterm
    | goalFound => rfl
    | exhausted => exact absurd h hnex
    | depthLimitHit => exact absurd h hndlh
  obtain ⟨c, _, hcost, _, hpath, hfc⟩ := loop_goal_exit g ft fuel (initialRun g ft none)
    (coreInv_initialRun g ft none) hrun hstatus
  rw [runSearch_eq]
  refine ⟨hstatus, ?_, ?_⟩
  · rw [hpath]
    exact reconstruct_path_ne_nil c
  · rw [hfc, hpath, pathStepCost_reconstruct g c hcost]

/-- C1, witness: on the 2x1 corridor the hypotheses hold concretely and
the amended claim yields a goal-found run with a non-empty path whose
step costs sum to the final cost. -/
theorem C1_witness :
    Reach exGrid2 exGrid2.goal ∧
    searchMeasure exGrid2 (initialRun exGrid2 .fifo none) < 12 ∧
    ((runSearch exGrid2 .fifo none 12).status = .goalFound ∧
     (runSearch exGrid2 .fifo none 12).path ≠ [] ∧
     (runSearch exGrid2 .fifo none 12).final_cost
       = pathStepCost exGrid2 (runSearch exGrid2 .fifo none 12).path) := by
  have h1 : Reach exGrid2 exGrid2.goal := ⟨1, .tail .refl (by decide)⟩
  have h2 : searchMeasure exGrid2 (initialRun exGrid2 .fifo none) < 12 := by decide
  exact ⟨h1, h2, C1_search_completeness exGrid2 .fifo 12 h1 h2⟩

/-! ## Claim C2 -/

/-- C2: on a grid with all step costs equal to 1 whose goal is reachable,
breadth-first search (`search` with the FIFO frontier and no depth
limit) finds the goal; the returned path is a genuine barrier-avoiding
path from start to goal whose number of steps is minimal among all
barrier-avoiding paths (`ReachN g k g.goal` says a path of `k` steps
exists), and `final_cost` equals its step count.  Instantiated at the
5x5 grid with barrier (2,2) this yields a path of 9 cells and final
cost 8 (see the witness). -/
theorem C2_bfs_shortest (g : Grid) (fuel : Nat)
    (hunit : ∀ p : Pos, g.cellCost p = 1)
    (hreach : Reach g g.goal)
    (hfuel : searchMeasure g (initialRun g .fifo none) < fuel) :
    (runSearch g .fifo none fuel).status = .goalFound ∧
    IsPath g (runSearch g .fifo none fuel).path ∧
    (runSearch g .fifo none fuel).path.getLast? = some g.goal ∧
    (∀ k : Nat, ReachN g k g.goal → (runSearch g .fifo none fuel).path.length ≤ k + 1) ∧
    (runSearch g .fifo none fuel).final_cost
      = ((runSearch g .fifo none fuel).path.length : Int) - 1 := by
  have hrun : (initialRun g .fifo none).status = .running := by rw [initialRun_eq]
  have hdlnone : (initialRun g .fifo none).depth_limit = none := by rw [initialRun_eq]
  have hterm := searchLoop_terminates g .fifo fuel (initialRun g .fifo none) hfuel
  have hnex := loop_no_exhaust g .fifo fuel (initialRun g .fifo none)
    (coreInv_initialRun g .fifo none) (coverInv_initialRun g .fifo none) hreach hrun
  have hndlh := loop_no_dlh_of_none g .fifo fuel (initialRun g .fifo none) hdlnone hrun
  have hstatus : (searchLoop g .fifo fuel (initialRun g .fifo none)).status
      = .goalFound := by
    cases h : (searchLoop g .fifo fuel (initialRun g .fifo none)).status with
    | running => exact absurd h hterm
    | goalFound => rfl
    | exhausted => exact absurd h hnex
    | depthLimitHit => exact absurd h hndlh
  obtain ⟨c, hchain, hcost, hgoalst, hpath, hfc, htight⟩ :=
    bfs_loop_goal_exit g fuel (initialRun g .fifo none)
      (coreInv_initialRun g .fifo none) ⟨0, bfsLevels_initialRun g none⟩ hrun hstatus
  obtain ⟨hisp, hlast⟩ := validChain_isPath g c hchain
  have hlen : (reconstruct_path c).length = c.chainLen + 1 := reconstruct_path_length c
  rw [runSearch_eq]
  refine ⟨hstatus, ?_, ?_, ?_, ?_⟩
  · rw [hpath]
    exact hisp
  · rw [hpath, hlast, hgoalst]
  · intro k hk
    rw [hpath, hlen]
    have := htight k hk
    omega
  · rw [hfc, hpath, hlen, costOK_unit g hunit c hcost]
    push_cast
    ring

/-- C2, witness: the repository's default 5x5 grid (start (0,0), goal
(4,4), barrier (2,2), unit costs).  The theorem applies, and the
breadth-first run concretely returns a path of 9 cells (8 steps) with
final cost 8, as the spec's example demands. -/
theorem C2_witness :
    (∀ p : Pos, exGrid5.cellCost p = 1) ∧
    Reach exGrid5 exGrid5.goal ∧
    searchMeasure exGrid5 (initialRun exGrid5 .fifo none) < 60 ∧
    ((runSearch exGrid5 .fifo none 60).status = .goalFound ∧
     IsPath exGrid5 (runSearch exGrid5 .fifo none 60).path ∧
     (runSearch exGrid5 .fifo none 60).path.getLast? = some exGrid5.goal ∧
     (∀ k : Nat, ReachN exGrid5 k exGrid5.goal →
        (runSearch exGrid5 .fifo none 60).path.length ≤ k + 1) ∧
     (runSearch exGrid5 .fifo none 60).final_cost
       = ((runSearch exGrid5 .fifo none 60).path.length : Int) - 1) ∧
    (runSearch exGrid5 .fifo none 60).path.length = 9 ∧
    (runSearch exGrid5 .fifo none 60).final_cost = 8 := by
  have hu : ∀ p : Pos, exGrid5.cellCost p = 1 := fun p => rfl
  have hr : Reach exGrid5 exGrid5.goal := by
    have s1 : ReachN exGrid5 1 (1, 0) := .tail .refl (by decide)
    have s2 : ReachN exGrid5 2 (2, 0) := .tail s1 (by decide)
    have s3 : ReachN exGrid5 3 (3, 0) := .tail s2 (by decide)
    have s4 : ReachN exGrid5 4 (4, 0) := .tail s3 (by decide)
    have s5 : ReachN exGrid5 5 (4, 1) := .tail s4 (by decide)
    have s6 : ReachN exGrid5 6 (4, 2) := .tail s5 (by decide)
    have s7 : ReachN exGrid5 7 (4, 3) := .tail s6 (by decide)
    exact ⟨8, .tail s7 (by decide)⟩
  have hm : searchMeasure exGrid5 (initialRun exGrid5 .fifo none) < 60 := by decide
  exact ⟨hu, hr, hm, C2_bfs_shortest exGrid5 60 hu hr hm, by decide, by decide⟩

/-! ## Claim C3 -/

/-- C3: a depth-limited `search` run (LIFO frontier, configured depth
limit `L`) never expands a node whose depth exceeds `L` — for *every*
grid and every fuel, unconditionally, each entry of the expansion trace
has depth at most `L`, since the code only expands below the limit —
and whenever the goal is reachable but only at depths greater than `L`,
the run terminates with `depth_limit_hit = true` and an empty path. -/
theorem C3_depth_limit (g : Grid) (L : Nat) (fuel : Nat) :
    (∀ n ∈ (runSearch g .lifo (some (L : Int)) fuel).expanded, n.depth ≤ L) ∧
    (Reach g g.goal →
      (∀ k : Nat, ReachN g k g.goal → ((L : Int) < (k : Int))) →
      searchMeasure g (initialRun g .lifo (some (L : Int))) < fuel →
      (runSearch g .lifo (some (L : Int)) fuel).status = .depthLimitHit ∧
      (runSearch g .lifo (some (L : Int)) fuel).depth_limit_hit = true ∧
      (runSearch g .lifo (some (L : Int)) fuel).path = []) := by
  have hrun : (initialRun g .lifo (some (L : Int))).status = .running := by
    rw [initialRun_eq]
  have hdl : (initialRun g .lifo (some (L : Int))).depth_limit = some (L : Int) := by
    rw [initialRun_eq]
  constructor
  · rw [runSearch_eq]
    intro n hn
    have hinit : ∀ m ∈ (initialRun g .lifo (some (L : Int))).expanded,
        (m.depth : Int) ≤ (L : Int) := by
      rw [initialRun_eq]
      intro m hm
      simp at hm
    have := loop_expanded_depth g .lifo (L : Int) fuel
      (initialRun g .lifo (some (L : Int))) hdl hinit n hn
    exact_mod_cast this
  · intro hreach hfar hfuel
    have hterm := searchLoop_terminates g .lifo fuel
      (initialRun g .lifo (some (L : Int))) hfuel
    have hnex := loop_no_exhaust g .lifo fuel (initialRun g .lifo (some (L : Int)))
      (coreInv_initialRun g .lifo (some (L : Int)))
      (coverInv_initialRun g .lifo (some (L : Int))) hreach hrun
    have hngoal := loop_no_goal_of_far g .lifo (L : Int) fuel
      (initialRun g .lifo (some (L : Int)))
      (coreInv_initialRun g .lifo (some (L : Int)))
      (depthInv_initialRun g .lifo (L : Int) (by positivity)) hdl hfar hrun
    have hstatus : (searchLoop g .lifo fuel (initialRun g .lifo (some (L : Int)))).status
        = .depthLimitHit := by
      cases h : (searchLoop g .lifo fuel (initialRun g .lifo (some (L : Int)))).status with
      | running => exact absurd h hterm
      | goalFound => exact absurd h hngoal
      | exhausted => exact absurd h hnex
      | depthLimitHit => rfl
    rw [runSearch_eq]
    refine ⟨hstatus, loop_dlh_flag g .lifo fuel _ hrun hstatus, ?_⟩
    rw [loop_path_unless_goal g .lifo fuel _ (by rw [hstatus]; simp), initialRun_eq]

/-- C3, witness: the 3x1 corridor with goal at distance 2 and depth
limit 1: no expanded node has depth above 1, and since the goal lies
only beyond the limit, the run hits the depth limit with an empty
path. -/
theorem C3_witness :
    (∀ n ∈ (runSearch exGrid3 .lifo (some ((1 : Nat) : Int)) 20).expanded,
        n.depth ≤ 1) ∧
    Reach exGrid3 exGrid3.goal ∧
    (∀ k : Nat, ReachN exGrid3 k exGrid3.goal → (((1 : Nat) : Int) < (k : Int))) ∧
    searchMeasure exGrid3 (initialRun exGrid3 .lifo (some ((1 : Nat) : Int))) < 20 ∧
    ((runSearch exGrid3 .lifo (some ((1 : Nat) : Int)) 20).status = .depthLimitHit ∧
     (runSearch exGrid3 .lifo (some ((1 : Nat) : Int)) 20).depth_limit_hit = true ∧
     (runSearch exGrid3 .lifo (some ((1 : Nat) : Int)) 20).path = []) := by
  have hr : Reach exGrid3 exGrid3.goal := by
    have s1 : ReachN exGrid3 1 (1, 0) := .tail .refl (by decide)
    exact ⟨2, .tail s1 (by decide)⟩
  have hfar : ∀ k : Nat, ReachN exGrid3 k exGrid3.goal → (((1 : Nat) : Int) < (k : Int)) := by
    intro k hk
    have := reachN_manhattan exGrid3 k exGrid3.goal hk
    have h2 : (2 : Nat) ≤ k := by
      simpa [exGrid3] using this
    omega
  have hm : searchMeasure exGrid3 (initialRun exGrid3 .lifo (some ((1 : Nat) : Int))) < 20 := by
    decide
  exact ⟨(C3_depth_limit exGrid3 1 20).1, hr, hfar, hm,
    (C3_depth_limit exGrid3 1 20).2 hr hfar hm⟩

/-! ## Claim C4 -/

/-- C4: iterative deepening with an unreachable goal and no externally
supplied depth limit runs one depth-limited attempt for every limit
value 0 through 100 inclusive (the ghost list of attempted limits is
exactly [0, 1, …, 100]; each attempt starts from a reset frontier,
frontier-membership set, explored set, path, cost and flag, as
`resetForAttempt` shows), reaches a terminal status, and finishes with
an empty path. -/
theorem C4_ids_unreachable (g : Grid) (fuel : Nat)
    (hunreach : ¬ Reach g g.goal)
    (hfuel : searchMeasure g (initialRun g .lifo none) < fuel) :
    (iterative_deepening_search g none fuel).2
        = (List.range 101).map (fun i : Nat => (i : Int)) ∧
    (iterative_deepening_search g none fuel).1.path = [] ∧
    (iterative_deepening_search g none fuel).1.status ≠ .running := by
  have hmain : iterative_deepening_search g none fuel
      = idsLoop g fuel 101 0 (initSearchState none) [] := rfl
  rw [hmain]
  obtain ⟨h1, h2, h3⟩ := idsLoop_all_fail g fuel hunreach hfuel 101 0
    (initSearchState none) [] (by omega)
  refine ⟨?_, h2, h3⟩
  rw [h1]
  simp

/-- C4, witness: a 2x1 grid whose goal cell is a barrier and hence
unreachable; iterative deepening attempts all limits 0..100 and ends
with an empty path. -/
theorem C4_witness :
    (¬ Reach exGridBlocked exGridBlocked.goal) ∧
    searchMeasure exGridBlocked (initialRun exGridBlocked .lifo none) < 10 ∧
    ((iterative_deepening_search exGridBlocked none 10).2
        = (List.range 101).map (fun i : Nat => (i : Int)) ∧
     (iterative_deepening_search exGridBlocked none 10).1.path = [] ∧
     (iterative_deepening_search exGridBlocked none 10).1.status ≠ .running) := by
  have hu : ¬ Reach exGridBlocked exGridBlocked.goal := by
    rintro ⟨n, h⟩
    cases h with
    | tail h1 h2 => exact h2.2.2 (by decide)
  have hm : searchMeasure exGridBlocked (initialRun exGridBlocked .lifo none) < 10 := by
    decide
  exact ⟨hu, hm, C4_ids_unreachable exGridBlocked 10 hu hm⟩

/-! ## Claim C5 -/

/-- C5, counterexample to the claim as stated: for the externally
supplied depth limit 0 the constructor does *not* configure
`min(0, 100) = 0`; Python truthiness (`if depth_limit`) treats 0 like
`None`, so the engine ends up with no depth limit at all. -/
theorem C5_counterexample :
    clampDepthLimit (some 0) ≠ some (min (0 : Int) 100) := by decide

/-- C5 (amended): for every externally supplied depth limit `d ≠ 0` the
configured limit equals `min(d, 100)` and any configured limit is at
most 100; for `d = 0` (exactly as for no supplied limit) the configured
limit is `None`, i.e. no depth limit at all. -/
theorem C5_clamp_amended (d : Int) :
    (d ≠ 0 → clampDepthLimit (some d) = some (min d 100)) ∧
    (clampDepthLimit (some d) = none ↔ d = 0) ∧
    (∀ L : Int, clampDepthLimit (some d) = some L → L ≤ 100) := by
  have hcl : clampDepthLimit (some d)
      = if d = 0 then none else some (min d 100) := rfl
  refine ⟨?_, ?_, ?_⟩
  · intro hne
    rw [hcl, if_neg hne]
  · rw [hcl]
    constructor
    · intro h
      by_contra hne
      rw [if_neg hne] at h
      simp at h
    · intro h
      rw [if_pos h]
  · intro L h
    rw [hcl] at h
    by_cases hd : d = 0
    · rw [if_pos hd] at h
      simp at h
    · rw [if_neg hd] at h
      simp only [Option.some.injEq] at h
      rw [← h]
      exact min_le_right d 100

/-- C5, witness: the amended statement at the concrete limit 5. -/
theorem C5_witness :
    (((5 : Int) ≠ 0 → clampDepthLimit (some 5) = some (min (5 : Int) 100)) ∧
     (clampDepthLimit (some (5 : Int)) = none ↔ (5 : Int) = 0) ∧
     (∀ L : Int, clampDepthLimit (some (5 : Int)) = some L → L ≤ 100)) :=
  C5_clamp_amended 5

/-! ## Claim C6 -/

/-- C6: within a single `search` run (any strategy's frontier
discipline, any depth limit, observed at any loop iteration `k`), the
pending frontier never holds two nodes with the same state, pending
states are never in the explored set (so a state in either set is never
re-inserted — in particular uniform-cost search never re-inserts a
pending state when a cheaper path appears), the explored set is exactly
the set of states of expanded nodes, and no state is ever expanded
twice. -/
theorem C6_no_reexpansion (g : Grid) (ft : FrontierType) (dl : Option Int) (k : Nat) :
    ((runSearch g ft dl k).frontier.map Node.state).Nodup ∧
    (∀ s ∈ (runSearch g ft dl k).frontier_set, s ∉ (runSearch g ft dl k).explored) ∧
    (∀ s : Pos, s ∈ (runSearch g ft dl k).explored ↔
      s ∈ (runSearch g ft dl k).expanded.map Node.state) ∧
    ((runSearch g ft dl k).expanded.map Node.state).Nodup := by
  have hc := coreInv_searchLoop g ft k (initialRun g ft dl) (coreInv_initialRun g ft dl)
  have he := expInv_searchLoop g ft k (initialRun g ft dl) (coreInv_initialRun g ft dl)
    (expInv_initialRun g ft dl)
  rw [runSearch_eq]
  exact ⟨hc.ndFront, hc.fsExpl, he.expIff, he.expNodup⟩

/-! ## Claim C7 -/

/-- C7: `Grid.get_neighbors` returns, in the fixed order up, right,
down, left (the order of `specNeighborCoords`), exactly those adjacent
coordinates that are within bounds and not barriers; every returned
neighbor has the queried node as parent, cost equal to the node's cost
plus the destination cell's step cost, and the default depth 0; and
when all four adjacent coordinates are in-bounds non-barriers
(a mid-grid node away from barriers) it returns exactly 4 neighbors. -/
theorem C7_get_neighbors (g : Grid) (n : Node) :
    (g.get_neighbors n).map Node.state = specNeighborCoords g n.state ∧
    (∀ t : Pos, t ∈ (g.get_neighbors n).map Node.state ↔ ValidStep g n.state t) ∧
    (∀ m ∈ g.get_neighbors n, m.parent = some n ∧
      m.cost = n.cost + g.cellCost m.state ∧ m.depth = 0 ∧
      inBoundsP g m.state ∧ m.state ∉ g.barriers) ∧
    ((∀ t : Pos, (∃ d ∈ directions, t = (n.state.1 + d.1, n.state.2 + d.2)) →
        inBoundsP g t ∧ t ∉ g.barriers) →
      (g.get_neighbors n).length = 4) := by
  refine ⟨get_neighbors_map_state g n, get_neighbors_state_iff g n, ?_, ?_⟩
  · intro m hm
    obtain ⟨hstep, hmk⟩ := mem_get_neighbors g n m hm
    refine ⟨?_, ?_, ?_, hstep.2.1, hstep.2.2⟩
    · rw [hmk]
      exact Node.parent_mk _ _ _ _
    · conv_lhs => rw [hmk]
      exact Node.cost_mk _ _ _ _
    · rw [hmk]
      exact Node.depth_mk _ _ _ _
  · intro hall
    have h1 : (g.get_neighbors n).length = ((g.get_neighbors n).map Node.state).length :=
      (List.length_map _ _).symm
    rw [h1, get_neighbors_map_state]
    unfold specNeighborCoords
    have hf : (directions.map (fun d => (n.state.1 + d.1, n.state.2 + d.2))).filter
        (fun t => decide (inBoundsP g t ∧ t ∉ g.barriers))
        = directions.map (fun d => (n.state.1 + d.1, n.state.2 + d.2)) := by
      rw [List.filter_eq_self]
      intro a ha
      rw [List.mem_map] at ha
      obtain ⟨d, hd, rfl⟩ := ha
      exact decide_eq_true (hall _ ⟨d, hd, rfl⟩)
    rw [hf]
    simp [directions]

/-- C7, witness: the center node (1,1) of a barrier-free 3x3 grid has
all four adjacents valid, gets exactly 4 neighbors, and their states
come out in the fixed order up, right, down, left. -/
theorem C7_witness :
    (∀ t : Pos, (∃ d ∈ directions,
        t = ((Node.mk (1, 1) none 0 0).state.1 + d.1,
             (Node.mk (1, 1) none 0 0).state.2 + d.2)) →
      inBoundsP exGrid9 t ∧ t ∉ exGrid9.barriers) ∧
    (exGrid9.get_neighbors (Node.mk (1, 1) none 0 0)).length = 4 ∧
    (exGrid9.get_neighbors (Node.mk (1, 1) none 0 0)).map Node.state
      = [(1, 0), (2, 1), (1, 2), (0, 1)] := by
  have hall : ∀ t : Pos, (∃ d ∈ directions,
      t = ((Node.mk (1, 1) none 0 0).state.1 + d.1,
           (Node.mk (1, 1) none 0 0).state.2 + d.2)) →
      inBoundsP exGrid9 t ∧ t ∉ exGrid9.barriers := by
    rintro t ⟨d, hd, rfl⟩
    simp [directions] at hd
    rcases hd with rfl | rfl | rfl | rfl <;> exact ⟨by decide, by decide⟩
  exact ⟨hall, (C7_get_neighbors exGrid9 (Node.mk (1, 1) none 0 0)).2.2.2 hall, by decide⟩

/-! ## Claim C8 -/

/-- C8: constructing the engine with a grid argument that is not a
`Grid` instance, or a strategy outside the enumeration, fails with a
construction-time error (the spec's `InvalidArgument` taxonomy: a
`TypeError` for the grid, a `ValueError` for the strategy) before any
search state is produced — the result is an error, not an engine, so no
search can run. -/
theorem C8_init_invalid (grid : PyArg Grid) (strategy : PyArg UninformedSearchStrategy)
    (depth_limit : Option Int)
    (h : grid = PyArg.other ∨ strategy = PyArg.other) :
    ∃ e : PyError, uninformedSearchInit grid strategy depth_limit = .error e := by
  rcases h with rfl | rfl
  · exact ⟨.typeError "Grid must be an instance of Grid", rfl⟩
  · cases grid with
    | other => exact ⟨.typeError "Grid must be an instance of Grid", rfl⟩
    | val g0 => exact ⟨.valueError "Invalid strategy", rfl⟩

/-- C8, witness: a non-`Grid` grid argument with a valid strategy. -/
theorem C8_witness :
    ((PyArg.other : PyArg Grid) = PyArg.other ∨
      (PyArg.val UninformedSearchStrategy.BreadthFirstSearch) = PyArg.other) ∧
    ∃ e : PyError, uninformedSearchInit PyArg.other
      (PyArg.val UninformedSearchStrategy.BreadthFirstSearch) none = .error e :=
  ⟨Or.inl rfl, C8_init_invalid _ _ none (Or.inl rfl)⟩

/-! ## Claim C9 -/

/-- C9: when the start coordinate equals the goal coordinate, any
strategy's `search` run terminates after popping a single node (the
ghost pop trace is exactly the start node), with path `[start]` and
final cost 0. -/
theorem C9_start_eq_goal (g : Grid) (ft : FrontierType) (dl : Option Int) (fuel : Nat)
    (hsg : g.start = g.goal) (hfuel : 1 ≤ fuel) :
    (runSearch g ft dl fuel).status = .goalFound ∧
    (runSearch g ft dl fuel).path = [g.start] ∧
    (runSearch g ft dl fuel).final_cost = 0 ∧
    (runSearch g ft dl fuel).pops = [mkStartNode g] := by
  obtain ⟨f, rfl⟩ : ∃ f, fuel = f + 1 := ⟨fuel - 1, by omega⟩
  rw [runSearch_eq, initialRun_eq, searchLoop, if_pos rfl]
  have hgoal : g.is_goal_state (mkStartNode g) = true :=
    (is_goal_state_true_iff g (mkStartNode g)).mpr hsg
  rw [searchStep_pop_goal g ft _ (mkStartNode g) [] (popF_singleton ft _) hgoal]
  rw [searchLoop_stable _ _ _ _ (by simp)]
  exact ⟨rfl, rfl, rfl, rfl⟩

/-- C9, witness: the 2x2 grid with start = goal = (0,0), run with the
priority (uniform-cost) frontier. -/
theorem C9_witness :
    exGridSame.start = exGridSame.goal ∧ (1 : Nat) ≤ 5 ∧
    ((runSearch exGridSame .priority none 5).status = .goalFound ∧
     (runSearch exGridSame .priority none 5).path = [exGridSame.start] ∧
     (runSearch exGridSame .priority none 5).final_cost = 0 ∧
     (runSearch exGridSame .priority none 5).pops = [mkStartNode exGridSame]) :=
  ⟨rfl, by omega, C9_start_eq_goal exGridSame .priority none 5 rfl (by omega)⟩

/-! ## Claim C10 -/

/-- C10: comparing a `Node` with a non-`Node` value does not raise:
both `Node.__eq__` and `Node.__lt__` *return* a `TypeError` instance as
their result value, and that object is truthy — so `n == v` evaluates
truthy for every node `n` and non-`Node` `v`, rather than `False` or an
error. -/
theorem C10_node_cmp (n : Node) :
    node_eq n PyArg.other = .pyTypeError "other must be an instance of Node" ∧
    pyTruthy (node_eq n PyArg.other) = true ∧
    node_lt n PyArg.other = .pyTypeError "other must be an instance of Node" ∧
    pyTruthy (node_lt n PyArg.other) = true :=
  ⟨rfl, rfl, rfl, rfl⟩

end SearchViz
